import Mathlib

/-!
Verification of the redistribution engine of the `citi_library` repository
(`library/services/redistribution.py`, `library/management/commands/rebalance.py`,
`library/models.py`).

The store (the Django ORM tables) is embedded shallowly:

* a `Holding` is one `LibraryBook` row (library id, book id, quantity);
* the holdings table is a `List Holding`; the `Library` and `Book` tables are
  lists of `LibraryRec` / `BookRec`;
* quantities are `Int` (the SQL arithmetic of `F("quantity") ± qty` is plain
  integer arithmetic; the `quantity >= 0` check constraint of `models.py` is
  carried as a well-formedness invariant `WF` and re-proved after apply);
* Python dicts keyed by `(library_id, book_id)` become key lists produced with
  `List.dedup` plus per-key aggregate functions; Python sets of library ids are
  modelled as duplicate-free lists in table order (the iteration order of a
  CPython set of ints is implementation-defined but fixed for a fixed state,
  which is all the source relies on);
* Python's stable `sorted` is modelled by the stable insertion sort `sortLe`.
-/

namespace CitiLibrary

/-- One `LibraryBook` row: quantity of one book held by one library. -/
structure Holding where
  libraryId : Nat
  bookId : Nat
  quantity : Int
deriving Repr, DecidableEq

/-- One `Library` row (`capacity` is a `PositiveIntegerField`). -/
structure LibraryRec where
  id : Nat
  capacity : Int
deriving Repr, DecidableEq

/-- One `Book` row (`year`, FK to the author). -/
structure BookRec where
  id : Nat
  year : Int
  authorId : Nat
deriving Repr, DecidableEq

/-- The inventory store: the three tables the redistribution engine touches. -/
structure DB where
  libs : List LibraryRec
  books : List BookRec
  holdings : List Holding
deriving Repr, DecidableEq

/-- `Move` dataclass of `redistribution.py`. -/
structure Move where
  bookId : Nat
  fromLibraryId : Nat
  toLibraryId : Nat
  quantity : Int
deriving Repr, DecidableEq

/-- `Plan` dataclass of `redistribution.py`. -/
structure Plan where
  moves : List Move
  totalMoves : Nat
  booksConsidered : Nat
deriving Repr, DecidableEq

/-! ## Store queries -/

/-- Rows for one `(library, book)` pair. -/
def rowsFor (hs : List Holding) (lib book : Nat) : List Holding :=
  hs.filter (fun h => h.libraryId == lib && h.bookId == book)

/-- Quantity held by `lib` of `book` (sum over matching rows; under the
`uniq_library_book` constraint there is at most one). -/
def qtyOf (hs : List Holding) (lib book : Nat) : Int :=
  ((rowsFor hs lib book).map (·.quantity)).sum

/-- All rows of one book: `LibraryBook.objects.filter(book_id=book)`. -/
def holdingsFor (hs : List Holding) (book : Nat) : List Holding :=
  hs.filter (fun h => h.bookId == book)

/-- `total(book)`: sum of quantities across libraries. -/
def totalOf (hs : List Holding) (book : Nat) : Int :=
  ((holdingsFor hs book).map (·.quantity)).sum

/-- `has_set`: distinct libraries holding `quantity > 0` of the book. -/
def hasSet (hs : List Holding) (book : Nat) : List Nat :=
  (((holdingsFor hs book).filter (fun h => decide (0 < h.quantity))).map
    (·.libraryId)).dedup

/-- `coverage(book)` = number of distinct libraries with `quantity > 0`. -/
def coverage (hs : List Holding) (book : Nat) : Nat :=
  (hasSet hs book).length

/-- `used_capacity(library)`: sum of quantities over the library's holdings. -/
def usedCapacity (hs : List Holding) (lib : Nat) : Int :=
  ((hs.filter (fun h => h.libraryId == lib)).map (·.quantity)).sum

/-- Ids of all libraries, in table order (`Library.objects.values_list("id")`). -/
def allLibIds (db : DB) : List Nat :=
  db.libs.map (·.id)

/-! ## Stable sorting (model of Python's stable `sorted`) -/

/-- Insert `a` into a sorted list, before the first element `b` with `le a b`
(so elements equal under `le` keep their original relative order). -/
def insertLe {α : Type} (le : α → α → Bool) (a : α) : List α → List α
  | [] => [a]
  | b :: t => if le a b then a :: b :: t else b :: insertLe le a t

/-- Stable insertion sort; extensionally models CPython's stable `sorted`. -/
def sortLe {α : Type} (le : α → α → Bool) : List α → List α
  | [] => []
  | a :: t => insertLe le a (sortLe le t)

/-! ## Candidate selector (`RedistributionManager._candidate_book_ids`) -/

/-- Ids of books whose coverage is below the library count and whose total
quantity is positive.  The source groups the `LibraryBook` table by book; the
group order is an unspecified detail of the SQL backend, modelled here as
last-occurrence order of the book id in the table (`List.dedup`).  Under the
`uniq_library_book` constraint the row count with `quantity > 0` used by the
source equals the distinct count `coverage`. -/
def candidateBookIds (db : DB) (nlibs : Nat) : List Nat :=
  ((db.holdings.map (·.bookId)).dedup).filter
    (fun b => decide (coverage db.holdings b < nlibs)
      && decide (0 < totalOf db.holdings b))

/-! ## Plan builder, base variant (`RedistributionManager._build_plan_for_book`) -/

/-- `donors`: holdings with `quantity > 1`, sorted by quantity descending
(stable, like Python's `sorted(key=lambda x: -x["quantity"])`). -/
def donorsFor (hs : List Holding) (book : Nat) : List Holding :=
  sortLe (fun a b => decide (b.quantity ≤ a.quantity))
    ((holdingsFor hs book).filter (fun h => decide (1 < h.quantity)))

/-- The inner `while` loop of the base builder: give copies of `book` from the
donor `dlib` to successive recipients while the donor has spare copies,
coverage is below target and recipients remain.  Returns the emitted moves,
the remaining recipients (the cursor `ri` is modelled by consuming the list)
and the updated `covered` counter. -/
def donorMoves (book dlib target : Nat) :
    Nat → List Nat → Nat → List Move × List Nat × Nat
  | _, [], covered => ([], [], covered)
  | 0, r :: rs, covered => ([], r :: rs, covered)
  | canMove + 1, r :: rs, covered =>
      if covered < target then
        let p := donorMoves book dlib target canMove rs (covered + 1)
        (⟨book, dlib, r, 1⟩ :: p.1, p.2.1, p.2.2)
      else ([], r :: rs, covered)

/-- The outer `for donor in donors` loop of the base builder. -/
def planLoop (book target : Nat) : List Holding → List Nat → Nat → List Move
  | [], _, _ => []
  | d :: ds, recips, covered =>
      let p := donorMoves book d.libraryId target (d.quantity - 1).toNat recips covered
      if target ≤ p.2.2 then p.1
      else p.1 ++ planLoop book target ds p.2.1 p.2.2

/-- `_build_plan_for_book` of the base manager.  The source compares
`covered >= target_coverage` with `target_coverage = min(nlibs, total)`;
since the `total == 0` case exits first and a negative total also yields an
empty plan either way, the target is kept as the natural number
`min nlibs total.toNat`. -/
def buildPlanForBook (db : DB) (book nlibs : Nat) : List Move :=
  let hb := holdingsFor db.holdings book
  let total : Int := (hb.map (·.quantity)).sum
  if total == 0 then []
  else
    let target := min nlibs total.toNat
    let has := hasSet db.holdings book
    let covered := has.length
    if target ≤ covered then []
    else
      let donors := donorsFor db.holdings book
      let recipients := (allLibIds db).filter (fun l => !(has.contains l))
      planLoop book target donors recipients covered

/-! ## Plan applier (`RedistributionManager._apply_plan`) -/

/-- Keys of the `inc` dict: destination `(library, book)` pairs of the moves.
Python dicts iterate in insertion order; since the keys are pairwise distinct
and the per-key updates are independent, any duplicate-free enumeration yields
the same table contents, so `List.dedup` is used. -/
def incPairs (ms : List Move) : List (Nat × Nat) :=
  (ms.map (fun m => (m.toLibraryId, m.bookId))).dedup

/-- Keys of the `dec` dict: source `(library, book)` pairs of the moves. -/
def decPairs (ms : List Move) : List (Nat × Nat) :=
  (ms.map (fun m => (m.fromLibraryId, m.bookId))).dedup

/-- Aggregated increment for one `(library, book)` key (value of the `inc`
dict). -/
def incAmt (ms : List Move) (lib book : Nat) : Int :=
  ((ms.filter (fun m => m.toLibraryId == lib && m.bookId == book)).map
    (·.quantity)).sum

/-- Aggregated decrement for one `(library, book)` key (value of the `dec`
dict). -/
def decAmt (ms : List Move) (lib book : Nat) : Int :=
  ((ms.filter (fun m => m.fromLibraryId == lib && m.bookId == book)).map
    (·.quantity)).sum

/-- One step of the increment loop: add `v` to the (unique) existing row for
the key, or create the row (`bulk_create`) if absent. -/
def bumpInc : List Holding → Nat → Nat → Int → List Holding
  | [], lib, book, v => [⟨lib, book, v⟩]
  | h :: t, lib, book, v =>
      if h.libraryId == lib && h.bookId == book then
        { h with quantity := h.quantity + v } :: t
      else h :: bumpInc t lib book v

/-- One step of the decrement loop:
`filter(library_id=lib, book_id=book).update(quantity=F("quantity") - v)`. -/
def bumpDec (hs : List Holding) (lib book : Nat) (v : Int) : List Holding :=
  hs.map (fun h =>
    if h.libraryId == lib && h.bookId == book then
      { h with quantity := h.quantity - v }
    else h)

/-- `_apply_plan`: aggregate the moves into the `inc` and `dec` maps, apply all
increments (creating rows as needed), then all decrements. -/
def applyPlan (hs : List Holding) (ms : List Move) : List Holding :=
  let afterInc :=
    (incPairs ms).foldl (fun acc p => bumpInc acc p.1 p.2 (incAmt ms p.1 p.2)) hs
  (decPairs ms).foldl (fun acc p => bumpDec acc p.1 p.2 (decAmt ms p.1 p.2)) afterInc

/-! ## Base orchestrator (`RedistributionManager.rebalance`) -/

/-- `rebalance` of the base manager: plan every candidate book, then apply the
collected moves unless this is a dry run.  Returns the report and the store
after the run. -/
def rebalanceBase (dryRun : Bool) (db : DB) : Plan × DB :=
  let nlibs := db.libs.length
  let cands := candidateBookIds db nlibs
  let moves := (cands.map (fun b => buildPlanForBook db b nlibs)).flatten
  let plan : Plan := ⟨moves, moves.length, cands.length⟩
  if dryRun then (plan, db)
  else (plan, { db with holdings := applyPlan db.holdings moves })

/-! ## Capacity-aware variant (`CapacityAwareRedistributionManager`) -/

/-- The `_free_capacity` dict, as an association list keyed by library id. -/
abbrev FreeCap := List (Nat × Int)

/-- `_compute_free_capacity`: `capacity - used` per library (`used` of a
library with no holdings is `None or 0`). -/
def computeFreeCapacity (db : DB) : FreeCap :=
  db.libs.map (fun L => (L.id, L.capacity - usedCapacity db.holdings L.id))

/-- Dict lookup with default 0 (`self._free_capacity.get(lid, 0)`). -/
def fcGet (fc : FreeCap) (l : Nat) : Int :=
  (((fc.find? (fun p => p.1 == l)).map (·.2)).getD 0)

/-- `self._free_capacity[to_lib] -= 1`. -/
def fcDec (fc : FreeCap) (l : Nat) : FreeCap :=
  fc.map (fun p => if p.1 == l then (p.1, p.2 - 1) else p)

/-- Inner `while` loop of the capacity-aware builder: like `donorMoves` but a
recipient whose tracked free capacity is no longer positive is skipped
(`ri += 1; continue`) without spending a copy, and every emitted move
decrements the destination's tracked free capacity. -/
def donorMovesCap (book dlib target : Nat) :
    List Nat → Nat → Nat → FreeCap → List Move × List Nat × Nat × FreeCap
  | [], _, covered, fc => ([], [], covered, fc)
  | r :: rs, canMove, covered, fc =>
      if 0 < canMove ∧ covered < target then
        if fcGet fc r ≤ 0 then donorMovesCap book dlib target rs canMove covered fc
        else
          let p := donorMovesCap book dlib target rs (canMove - 1) (covered + 1)
            (fcDec fc r)
          (⟨book, dlib, r, 1⟩ :: p.1, p.2.1, p.2.2.1, p.2.2.2)
      else ([], r :: rs, covered, fc)

/-- Outer donor loop of the capacity-aware builder. -/
def planLoopCap (book target : Nat) :
    List Holding → List Nat → Nat → FreeCap → List Move × FreeCap
  | [], _, _, fc => ([], fc)
  | d :: ds, recips, covered, fc =>
      let p := donorMovesCap book d.libraryId target recips (d.quantity - 1).toNat
        covered fc
      if target ≤ p.2.2.1 then (p.1, p.2.2.2)
      else
        let q := planLoopCap book target ds p.2.1 p.2.2.1 p.2.2.2
        (p.1 ++ q.1, q.2)

/-- `_build_plan_for_book` of the capacity-aware manager.  The free-capacity
map is (re)computed from the store only when the held map is empty — the lazy
`if not self._free_capacity` check — and is threaded through explicitly as the
manager-instance state.  `all_lib_ids` is the key set of the map, and
recipients are pre-filtered to positive tracked free capacity. -/
def buildPlanForBookCap (db : DB) (book nlibs : Nat) (fc0 : FreeCap) :
    List Move × FreeCap :=
  let fc := if fc0.isEmpty then computeFreeCapacity db else fc0
  let hb := holdingsFor db.holdings book
  let total : Int := (hb.map (·.quantity)).sum
  if total == 0 then ([], fc)
  else
    let target := min nlibs total.toNat
    let has := hasSet db.holdings book
    let covered := has.length
    if target ≤ covered then ([], fc)
    else
      let donors := donorsFor db.holdings book
      let recipientsAll := (fc.map (·.1)).filter (fun l => !(has.contains l))
      let recipients := recipientsAll.filter (fun l => decide (0 < fcGet fc l))
      planLoopCap book target donors recipients covered fc

/-- The candidate loop of `rebalance` for the capacity-aware variants,
threading the instance's free-capacity map through the per-book builder. -/
def planForCandidates (db : DB) (nlibs : Nat) :
    List Nat → FreeCap → List Move × FreeCap
  | [], fc => ([], fc)
  | b :: bs, fc =>
      let p := buildPlanForBookCap db b nlibs fc
      let q := planForCandidates db nlibs bs p.2
      (p.1 ++ q.1, q.2)

/-- `rebalance` on a `CapacityAwareRedistributionManager` whose instance state
(`self._free_capacity`) currently holds `fc0`; a freshly constructed manager
has `fc0 = []`.  Returns the report, the store after the run, and the map the
instance holds afterwards. -/
def rebalanceCap (dryRun : Bool) (db : DB) (fc0 : FreeCap) :
    Plan × DB × FreeCap :=
  let nlibs := db.libs.length
  let cands := candidateBookIds db nlibs
  let p := planForCandidates db nlibs cands fc0
  let plan : Plan := ⟨p.1, p.1.length, cands.length⟩
  if dryRun then (plan, db, p.2)
  else (plan, { db with holdings := applyPlan db.holdings p.1 }, p.2)

/-! ## Priority variant (`PriorityRedistributionManager`) -/

/-- Configuration of the priority manager: `priority or "year_desc"` and the
author id set. -/
structure PriorityCfg where
  priority : String
  authorIds : List Nat
deriving Repr, DecidableEq

/-- `sort_key` of `PriorityRedistributionManager.rebalance`.  Candidate book
ids always have metadata (FK from `LibraryBook` to `Book`); the `none` default
mirrors the total lookup. -/
def sortKey (cfg : PriorityCfg) (db : DB) (bid : Nat) : Nat × Int :=
  match db.books.find? (fun b => b.id == bid) with
  | some meta =>
      if cfg.priority == "author_first" && cfg.authorIds.contains meta.authorId then
        (0, -meta.year)
      else if cfg.priority == "year_desc" then (1, -meta.year)
      else (2, (bid : Int))
  | none => (2, (bid : Int))

/-- Ascending lexicographic comparison of sort keys, as used by `sorted`. -/
def keyLe (a b : Nat × Int) : Bool :=
  decide (a.1 < b.1) || (a.1 == b.1 && decide (a.2 ≤ b.2))

/-- The candidate ids in priority order (`ordered = sorted(base_ids, key=sort_key)`). -/
def orderedCandidates (cfg : PriorityCfg) (db : DB) : List Nat :=
  sortLe (fun x y => keyLe (sortKey cfg db x) (sortKey cfg db y))
    (candidateBookIds db db.libs.length)

/-- `rebalance` of `PriorityRedistributionManager`: identical to the
capacity-aware run except that candidates are processed in priority order. -/
def rebalancePriority (dryRun : Bool) (cfg : PriorityCfg) (db : DB)
    (fc0 : FreeCap) : Plan × DB × FreeCap :=
  let nlibs := db.libs.length
  let ordered := orderedCandidates cfg db
  let p := planForCandidates db nlibs ordered fc0
  let plan : Plan := ⟨p.1, p.1.length, ordered.length⟩
  if dryRun then (plan, db, p.2)
  else (plan, { db with holdings := applyPlan db.holdings p.1 }, p.2)

/-! ## Variants and the command-level entry point -/

/-- Which manager class a run uses. -/
inductive Variant
  | base
  | capacityAware
  | priority (cfg : PriorityCfg)
deriving Repr, DecidableEq

/-- One rebalance invocation on a freshly constructed manager (which is how
the `rebalance` management command runs it): empty initial free-capacity map
for the capacity-aware variants. -/
def runRebalance (v : Variant) (dryRun : Bool) (db : DB) : Plan × DB :=
  match v with
  | .base => rebalanceBase dryRun db
  | .capacityAware =>
      let r := rebalanceCap dryRun db []
      (r.1, r.2.1)
  | .priority cfg =>
      let r := rebalancePriority dryRun cfg db []
      (r.1, r.2.1)

/-- The move list a run plans (identical for dry run and apply). -/
def runPlanMoves (v : Variant) (db : DB) : List Move :=
  (runRebalance v true db).1.moves

/-- Manager classes the `rebalance` management command can construct. -/
inductive ManagerChoice
  | base
  | capacityAware
  | priorityAware (priority : String) (authorIds : List Nat)
deriving Repr, DecidableEq

/-- Manager selection of `Command.handle` in
`management/commands/rebalance.py`: the priority manager requires the
`--capacity-aware` flag together with a truthy `--priority` (its argparse
default is `"year_desc"`, never empty) or a nonempty author list; the bare
flag gives the capacity-aware manager; otherwise the base manager. -/
def selectManager (capacityAware : Bool) (priority : String)
    (authors : List Nat) : ManagerChoice :=
  if capacityAware && (!(priority == "") || !authors.isEmpty) then
    .priorityAware priority authors
  else if capacityAware then .capacityAware
  else .base

/-! ## Well-formedness of the store -/

/-- Invariants of the persisted store: distinct library ids, at most one row
per `(library, book)` pair (`uniq_library_book`), non-negative quantities
(`quantity_non_negative`), the `library` FK, and non-negative capacities
(`PositiveIntegerField`). -/
def WF (db : DB) : Prop :=
  (db.libs.map (·.id)).Nodup
    ∧ (db.holdings.map (fun h => (h.libraryId, h.bookId))).Nodup
    ∧ (∀ h ∈ db.holdings, 0 ≤ h.quantity)
    ∧ (∀ h ∈ db.holdings, h.libraryId ∈ allLibIds db)
    ∧ (∀ L ∈ db.libs, 0 ≤ L.capacity)

/-! ## Characterizing the applier: per-key sums -/

/-- Sum of quantities over the rows whose key satisfies `P`; `qtyOf`,
`totalOf` and `usedCapacity` are instances. -/
def keySum (P : Nat → Nat → Bool) (hs : List Holding) : Int :=
  ((hs.filter (fun h => P h.libraryId h.bookId)).map (·.quantity)).sum

lemma keySum_cons (P : Nat → Nat → Bool) (h : Holding) (t : List Holding) :
    keySum P (h :: t)
      = (if P h.libraryId h.bookId then h.quantity else 0) + keySum P t := by
  by_cases hP : P h.libraryId h.bookId <;> simp [keySum, List.filter_cons, hP]

lemma keySum_bumpInc (P : Nat → Nat → Bool) (hs : List Holding) (l b : Nat)
    (v : Int) :
    keySum P (bumpInc hs l b v) = keySum P hs + (if P l b then v else 0) := by
  induction hs with
  | nil => by_cases hP : P l b <;> simp [bumpInc, keySum, hP]
  | cons h t ih =>
      cases hk : (h.libraryId == l && h.bookId == b) with
      | true =>
          obtain ⟨hl, hb⟩ : h.libraryId = l ∧ h.bookId = b := by
            simpa [Bool.and_eq_true, beq_iff_eq] using hk
          subst hl; subst hb
          by_cases hP : P h.libraryId h.bookId <;>
            simp [bumpInc, hk, keySum_cons, hP] <;> ring
      | false =>
          simp only [bumpInc, hk, Bool.false_eq_true, if_false, keySum_cons, ih]
          ring

lemma rowsFor_cons (h : Holding) (t : List Holding) (l b : Nat) :
    rowsFor (h :: t) l b
      = if h.libraryId == l && h.bookId == b then h :: rowsFor t l b
        else rowsFor t l b := by
  by_cases hk : (h.libraryId == l && h.bookId == b) <;>
    simp [rowsFor, List.filter_cons, hk]

lemma bumpDec_cons (h : Holding) (t : List Holding) (l b : Nat) (v : Int) :
    bumpDec (h :: t) l b v
      = (if h.libraryId == l && h.bookId == b then
          { h with quantity := h.quantity - v } else h) :: bumpDec t l b v := rfl

lemma keySum_bumpDec (P : Nat → Nat → Bool) (hs : List Holding) (l b : Nat)
    (v : Int) :
    keySum P (bumpDec hs l b v)
      = keySum P hs
        - (if P l b then v * ((rowsFor hs l b).length : Int) else 0) := by
  induction hs with
  | nil => by_cases hP : P l b <;> simp [bumpDec, keySum, rowsFor, hP]
  | cons h t ih =>
      rw [bumpDec_cons]
      by_cases hk : (h.libraryId == l && h.bookId == b) = true
      · obtain ⟨hl, hb⟩ : h.libraryId = l ∧ h.bookId = b := by
          simpa [Bool.and_eq_true, beq_iff_eq] using hk
        subst hl; subst hb
        rw [if_pos hk, keySum_cons, keySum_cons, rowsFor_cons, if_pos hk, ih]
        by_cases hP : P h.libraryId h.bookId <;> simp [hP] <;> push_cast <;> ring
      · rw [if_neg hk, keySum_cons, keySum_cons, rowsFor_cons, if_neg hk, ih]
        ring

lemma keySum_foldl_bumpInc (P : Nat → Nat → Bool) (f : Nat × Nat → Int) :
    ∀ (ps : List (Nat × Nat)) (hs : List Holding),
    keySum P (ps.foldl (fun acc p => bumpInc acc p.1 p.2 (f p)) hs)
      = keySum P hs + ((ps.filter (fun p => P p.1 p.2)).map f).sum
  | [], hs => by simp
  | p :: ps, hs => by
      rw [List.foldl_cons, keySum_foldl_bumpInc P f ps, keySum_bumpInc,
        List.filter_cons]
      by_cases hP : P p.1 p.2 <;> simp [hP] <;> ring

lemma bumpInc_cons (h : Holding) (t : List Holding) (l b : Nat) (v : Int) :
    bumpInc (h :: t) l b v
      = if h.libraryId == l && h.bookId == b then
          { h with quantity := h.quantity + v } :: t
        else h :: bumpInc t l b v := rfl

lemma rowsFor_bumpDec (hs : List Holding) (l b l' b' : Nat) (v : Int) :
    (rowsFor (bumpDec hs l b v) l' b').length = (rowsFor hs l' b').length := by
  induction hs with
  | nil => rfl
  | cons h t ih =>
      rw [bumpDec_cons]
      by_cases hk : (h.libraryId == l && h.bookId == b) = true
      · rw [if_pos hk, rowsFor_cons, rowsFor_cons]
        by_cases hk' : (h.libraryId == l' && h.bookId == b') = true
        · rw [if_pos hk', if_pos hk']
          simp [ih]
        · rw [if_neg hk', if_neg hk']
          exact ih
      · rw [if_neg hk, rowsFor_cons, rowsFor_cons]
        by_cases hk' : (h.libraryId == l' && h.bookId == b') = true
        · rw [if_pos hk', if_pos hk']
          simp [ih]
        · rw [if_neg hk', if_neg hk']
          exact ih

lemma keySum_foldl_bumpDec (P : Nat → Nat → Bool) (f : Nat × Nat → Int) :
    ∀ (ps : List (Nat × Nat)) (hs : List Holding),
    (∀ p ∈ ps, (rowsFor hs p.1 p.2).length = 1) →
    keySum P (ps.foldl (fun acc p => bumpDec acc p.1 p.2 (f p)) hs)
      = keySum P hs - ((ps.filter (fun p => P p.1 p.2)).map f).sum
  | [], hs, _ => by simp
  | p :: ps, hs, hrows => by
      rw [List.foldl_cons,
        keySum_foldl_bumpDec P f ps (bumpDec hs p.1 p.2 (f p))
          (fun q hq => by rw [rowsFor_bumpDec]; exact hrows q (List.mem_cons_of_mem _ hq)),
        keySum_bumpDec, hrows p (List.mem_cons_self _ _), List.filter_cons]
      by_cases hP : P p.1 p.2 <;> simp [hP] <;> ring

/-- Rows at a different key are untouched by `bumpInc`. -/
lemma rowsFor_bumpInc_ne (hs : List Holding) (l b l' b' : Nat) (v : Int)
    (hne : ¬(l = l' ∧ b = b')) :
    rowsFor (bumpInc hs l b v) l' b' = rowsFor hs l' b' := by
  induction hs with
  | nil =>
      simp only [bumpInc, rowsFor, List.filter]
      have : ¬(l == l' && b == b') = true := by
        simpa [Bool.and_eq_true, beq_iff_eq] using hne
      simp [this]
  | cons h t ih =>
      rw [bumpInc_cons]
      by_cases hk : (h.libraryId == l && h.bookId == b) = true
      · rw [if_pos hk, rowsFor_cons, rowsFor_cons]
        obtain ⟨hl, hb⟩ : h.libraryId = l ∧ h.bookId = b := by
          simpa [Bool.and_eq_true, beq_iff_eq] using hk
        have hne' : ¬(h.libraryId == l' && h.bookId == b') = true := by
          simp only [Bool.and_eq_true, beq_iff_eq, hl, hb]
          exact fun c => hne c
        rw [if_neg hne', if_neg hne']
      · rw [if_neg hk, rowsFor_cons, rowsFor_cons, ih]

/-- `bumpInc` keeps the row count at its own key whenever a row exists. -/
lemma rowsFor_bumpInc_self (hs : List Holding) (l b : Nat) (v : Int)
    (hpos : 1 ≤ (rowsFor hs l b).length) :
    (rowsFor (bumpInc hs l b v) l b).length = (rowsFor hs l b).length := by
  induction hs with
  | nil => simp [rowsFor] at hpos
  | cons h t ih =>
      rw [bumpInc_cons]
      by_cases hk : (h.libraryId == l && h.bookId == b) = true
      · rw [if_pos hk, rowsFor_cons, rowsFor_cons, if_pos hk, if_pos hk]
        simp
      · rw [if_neg hk, rowsFor_cons, if_neg hk]
        rw [rowsFor_cons, if_neg hk] at hpos ⊢
        exact ih hpos

lemma rowsFor_foldl_bumpInc (f : Nat × Nat → Int) :
    ∀ (ps : List (Nat × Nat)) (hs : List Holding) (l b : Nat),
    (rowsFor hs l b).length = 1 →
    (rowsFor (ps.foldl (fun acc p => bumpInc acc p.1 p.2 (f p)) hs) l b).length = 1
  | [], _, _, _, h => h
  | p :: ps, hs, l, b, h => by
      rw [List.foldl_cons]
      refine rowsFor_foldl_bumpInc f ps _ l b ?_
      by_cases hp : p.1 = l ∧ p.2 = b
      · obtain ⟨h1, h2⟩ := hp; subst h1; subst h2
        rw [rowsFor_bumpInc_self hs p.1 p.2 (f p) (by omega), h]
      · rw [rowsFor_bumpInc_ne hs p.1 p.2 l b (f p) hp, h]

/-! ### Grouping: summing a dict built from a list equals summing the list -/

lemma sum_map_add {α : Type} (g h : α → Int) (l : List α) :
    (l.map (fun a => g a + h a)).sum = (l.map g).sum + (l.map h).sum := by
  induction l with
  | nil => simp
  | cons a t ih => simp [ih]; ring

lemma sum_map_ite_eq_of_nodup {κ : Type} [DecidableEq κ] (k : κ) (c : Int) :
    ∀ ps : List κ, ps.Nodup →
    (ps.map (fun p => if k = p then c else 0)).sum = if k ∈ ps then c else 0
  | [], _ => by simp
  | q :: qs, hnd => by
      rw [List.map_cons, List.sum_cons,
        sum_map_ite_eq_of_nodup k c qs (List.Nodup.of_cons hnd)]
      by_cases hkq : k = q
      · subst hkq
        have : k ∉ qs := (List.nodup_cons.mp hnd).1
        simp [this]
      · simp [hkq]

/-- The value the aggregation dict stores at key `p`. -/
def keyGroupSum {α κ : Type} [DecidableEq κ] (key : α → κ) (f : α → Int)
    (ms : List α) (p : κ) : Int :=
  ((ms.filter (fun m => decide (key m = p))).map f).sum

lemma keyGroupSum_cons {α κ : Type} [DecidableEq κ] (key : α → κ) (f : α → Int)
    (m : α) (rest : List α) (p : κ) :
    keyGroupSum key f (m :: rest) p
      = (if key m = p then f m else 0) + keyGroupSum key f rest p := by
  by_cases hm : key m = p <;> simp [keyGroupSum, List.filter_cons, hm]

lemma keyGroupSum_eq_zero {α κ : Type} [DecidableEq κ] (key : α → κ)
    (f : α → Int) (rest : List α) (k : κ) (hk : k ∉ rest.map key) :
    keyGroupSum key f rest k = 0 := by
  have : rest.filter (fun m => decide (key m = k)) = [] := by
    rw [List.filter_eq_nil_iff]
    intro m hm
    simp only [decide_eq_true_eq]
    exact fun he => hk (he ▸ List.mem_map_of_mem _ hm)
  simp [keyGroupSum, this]

/-- Iterating the aggregation dict (distinct keys) and summing the per-key
aggregates, restricted to keys satisfying `Q`, equals summing the underlying
list restricted to elements whose key satisfies `Q`. -/
lemma grouped_sum {α κ : Type} [DecidableEq κ] (key : α → κ) (f : α → Int)
    (Q : κ → Bool) :
    ∀ ms : List α,
    (((ms.map key).dedup.filter Q).map (keyGroupSum key f ms)).sum
      = ((ms.filter (fun m => Q (key m))).map f).sum
  | [] => by simp
  | m :: rest => by
      have hrec := grouped_sum key f Q rest
      have hsplit :
          (((rest.map key).dedup.filter Q).map (keyGroupSum key f (m :: rest))).sum
            = (((rest.map key).dedup.filter Q).map
                (fun p => if key m = p then f m else 0)).sum
              + (((rest.map key).dedup.filter Q).map (keyGroupSum key f rest)).sum := by
        have hfun : keyGroupSum key f (m :: rest)
            = fun p => (if key m = p then f m else 0) + keyGroupSum key f rest p :=
          funext fun p => keyGroupSum_cons key f m rest p
        rw [hfun, sum_map_add]
      have hnodupF : ((rest.map key).dedup.filter Q).Nodup :=
        (List.nodup_dedup _).filter Q
      by_cases hmem : key m ∈ rest.map key
      · rw [List.map_cons, List.dedup_cons_of_mem hmem, hsplit,
          sum_map_ite_eq_of_nodup _ _ _ hnodupF, hrec, List.filter_cons]
        by_cases hQ : Q (key m) = true
        · have : key m ∈ (rest.map key).dedup.filter Q :=
            List.mem_filter.mpr ⟨List.mem_dedup.mpr hmem, hQ⟩
          simp [hQ, this]
        · have : key m ∉ (rest.map key).dedup.filter Q := by
            intro hc
            exact hQ (List.mem_filter.mp hc).2
          simp [hQ, this]
      · rw [List.map_cons, List.dedup_cons_of_not_mem hmem, List.filter_cons]
        have hnotinF : key m ∉ (rest.map key).dedup.filter Q := by
          intro hc
          exact hmem (List.mem_dedup.mp (List.mem_filter.mp hc).1)
        by_cases hQ : Q (key m) = true
        · rw [if_pos hQ, List.map_cons, List.sum_cons, hsplit,
            sum_map_ite_eq_of_nodup _ _ _ hnodupF, hrec, keyGroupSum_cons,
            keyGroupSum_eq_zero key f rest (key m) hmem, List.filter_cons]
          simp [hQ, hnotinF]
        · rw [if_neg hQ, hsplit, sum_map_ite_eq_of_nodup _ _ _ hnodupF, hrec,
            List.filter_cons]
          simp [hQ, hnotinF]

lemma incAmt_eq_keyGroupSum (ms : List Move) :
    (fun p : Nat × Nat => incAmt ms p.1 p.2)
      = keyGroupSum (fun m => (m.toLibraryId, m.bookId)) (·.quantity) ms := by
  funext p
  unfold incAmt keyGroupSum
  refine congrArg _ (congrArg _ ?_)
  refine List.filter_congr ?_
  intro m _
  refine Bool.eq_iff_iff.mpr ?_
  cases p with
  | mk a b => simp [Prod.ext_iff]

lemma decAmt_eq_keyGroupSum (ms : List Move) :
    (fun p : Nat × Nat => decAmt ms p.1 p.2)
      = keyGroupSum (fun m => (m.fromLibraryId, m.bookId)) (·.quantity) ms := by
  funext p
  unfold decAmt keyGroupSum
  refine congrArg _ (congrArg _ ?_)
  refine List.filter_congr ?_
  intro m _
  refine Bool.eq_iff_iff.mpr ?_
  cases p with
  | mk a b => simp [Prod.ext_iff]

/-- Characterization of `_apply_plan`: every per-key sum of quantities moves
by the aggregated increments minus the aggregated decrements, provided every
decremented key has exactly one row (true of builder plans: sources are
donors).  This packages the row-update/row-create and locked-update loops of
the source into their effect on the table's contents. -/
lemma keySum_applyPlan (P : Nat → Nat → Bool) (hs : List Holding)
    (ms : List Move)
    (hdec : ∀ p ∈ decPairs ms, (rowsFor hs p.1 p.2).length = 1) :
    keySum P (applyPlan hs ms)
      = keySum P hs
        + ((ms.filter (fun m => P m.toLibraryId m.bookId)).map (·.quantity)).sum
        - ((ms.filter (fun m => P m.fromLibraryId m.bookId)).map (·.quantity)).sum := by
  unfold applyPlan
  rw [keySum_foldl_bumpDec P (fun p => decAmt ms p.1 p.2) (decPairs ms) _
      (fun p hp => rowsFor_foldl_bumpInc _ (incPairs ms) hs p.1 p.2 (hdec p hp)),
    keySum_foldl_bumpInc P (fun p => incAmt ms p.1 p.2) (incPairs ms) hs]
  have hinc :
      ((( incPairs ms).filter (fun p => P p.1 p.2)).map
        (fun p => incAmt ms p.1 p.2)).sum
      = ((ms.filter (fun m => P m.toLibraryId m.bookId)).map (·.quantity)).sum := by
    rw [incAmt_eq_keyGroupSum]
    exact grouped_sum (fun m => (m.toLibraryId, m.bookId)) (·.quantity)
      (fun p => P p.1 p.2) ms
  have hdec' :
      ((( decPairs ms).filter (fun p => P p.1 p.2)).map
        (fun p => decAmt ms p.1 p.2)).sum
      = ((ms.filter (fun m => P m.fromLibraryId m.bookId)).map (·.quantity)).sum := by
    rw [decAmt_eq_keyGroupSum]
    exact grouped_sum (fun m => (m.fromLibraryId, m.bookId)) (·.quantity)
      (fun p => P p.1 p.2) ms
  rw [hinc, hdec']

/-- `qtyOf` as a `keySum`. -/
lemma qtyOf_eq_keySum (hs : List Holding) (l b : Nat) :
    qtyOf hs l b = keySum (fun l' b' => l' == l && b' == b) hs := rfl

/-- `totalOf` as a `keySum`. -/
lemma totalOf_eq_keySum (hs : List Holding) (b : Nat) :
    totalOf hs b = keySum (fun _ b' => b' == b) hs := rfl

/-- `usedCapacity` as a `keySum`. -/
lemma usedCapacity_eq_keySum (hs : List Holding) (l : Nat) :
    usedCapacity hs l = keySum (fun l' _ => l' == l) hs := rfl

/-- Per-pair effect of applying a plan. -/
lemma qtyOf_applyPlan (hs : List Holding) (ms : List Move) (l b : Nat)
    (hdec : ∀ p ∈ decPairs ms, (rowsFor hs p.1 p.2).length = 1) :
    qtyOf (applyPlan hs ms) l b = qtyOf hs l b + incAmt ms l b - decAmt ms l b := by
  rw [qtyOf_eq_keySum, qtyOf_eq_keySum,
    keySum_applyPlan (fun l' b' => l' == l && b' == b) hs ms hdec]
  rfl

/-- Conservation: applying any plan whose decremented keys have rows leaves
every book's total quantity unchanged (the per-book increment and decrement
sums coincide). -/
lemma totalOf_applyPlan (hs : List Holding) (ms : List Move) (b : Nat)
    (hdec : ∀ p ∈ decPairs ms, (rowsFor hs p.1 p.2).length = 1) :
    totalOf (applyPlan hs ms) b = totalOf hs b := by
  rw [totalOf_eq_keySum, totalOf_eq_keySum,
    keySum_applyPlan (fun _ b' => b' == b) hs ms hdec]
  ring

/-- Per-library effect of applying a plan on used capacity. -/
lemma usedCapacity_applyPlan (hs : List Holding) (ms : List Move) (l : Nat)
    (hdec : ∀ p ∈ decPairs ms, (rowsFor hs p.1 p.2).length = 1) :
    usedCapacity (applyPlan hs ms) l
      = usedCapacity hs l
        + ((ms.filter (fun m => m.toLibraryId == l)).map (·.quantity)).sum
        - ((ms.filter (fun m => m.fromLibraryId == l)).map (·.quantity)).sum := by
  rw [usedCapacity_eq_keySum, usedCapacity_eq_keySum,
    keySum_applyPlan (fun l' _ => l' == l) hs ms hdec]

/-! ## Builder loop invariants -/

/-- Number of moves out of library `l`. -/
def fromCount (ms : List Move) (l : Nat) : Nat :=
  (ms.filter (fun m => m.fromLibraryId == l)).length

/-- Number of moves into library `l`. -/
def toCount (ms : List Move) (l : Nat) : Nat :=
  (ms.filter (fun m => m.toLibraryId == l)).length

lemma fromCount_append (a b : List Move) (l : Nat) :
    fromCount (a ++ b) l = fromCount a l + fromCount b l := by
  simp [fromCount]

lemma toCount_append (a b : List Move) (l : Nat) :
    toCount (a ++ b) l = toCount a l + toCount b l := by
  simp [toCount]

lemma fromCount_eq_length (ms : List Move) (l : Nat)
    (h : ∀ m ∈ ms, m.fromLibraryId = l) : fromCount ms l = ms.length := by
  unfold fromCount
  rw [List.filter_eq_self.mpr (fun m hm => by simp [h m hm])]

lemma fromCount_eq_zero (ms : List Move) (l : Nat)
    (h : ∀ m ∈ ms, m.fromLibraryId ≠ l) : fromCount ms l = 0 := by
  unfold fromCount
  rw [List.filter_eq_nil_iff.mpr (fun m hm => by simp [h m hm])]
  rfl

lemma toCount_cons (m : Move) (ms : List Move) (l : Nat) :
    toCount (m :: ms) l
      = (if m.toLibraryId = l then 1 else 0) + toCount ms l := by
  by_cases hm : m.toLibraryId = l <;> simp [toCount, List.filter_cons, hm] <;> omega

/-- Invariants of the inner `while` loop of the base builder. -/
lemma donorMoves_spec (book dlib target : Nat) :
    ∀ (recips : List Nat) (canMove covered : Nat),
    ((donorMoves book dlib target canMove recips covered).1.map (·.toLibraryId))
        ++ (donorMoves book dlib target canMove recips covered).2.1 = recips
    ∧ (donorMoves book dlib target canMove recips covered).2.2
        = covered + (donorMoves book dlib target canMove recips covered).1.length
    ∧ (donorMoves book dlib target canMove recips covered).1.length ≤ canMove
    ∧ (donorMoves book dlib target canMove recips covered).2.2 ≤ max covered target
    ∧ (∀ m ∈ (donorMoves book dlib target canMove recips covered).1,
        m.bookId = book ∧ m.fromLibraryId = dlib ∧ m.quantity = 1)
  | [], canMove, covered => by
      refine ⟨by simp [donorMoves], by simp [donorMoves], by simp [donorMoves],
        by simp [donorMoves], by simp [donorMoves]⟩
  | r :: rs, 0, covered => by
      refine ⟨by simp [donorMoves], by simp [donorMoves], by simp [donorMoves],
        by simp [donorMoves], by simp [donorMoves]⟩
  | r :: rs, canMove + 1, covered => by
      by_cases h : covered < target
      · obtain ⟨ih1, ih2, ih3, ih4, ih5⟩ :=
          donorMoves_spec book dlib target rs canMove (covered + 1)
        simp only [donorMoves, if_pos h]
        refine ⟨?_, ?_, ?_, ?_, ?_⟩
        · simp only [List.map_cons, List.cons_append, ih1]
        · simp only [List.length_cons]
          omega
        · simp only [List.length_cons]
          omega
        · omega
        · intro m hm
          rcases List.mem_cons.mp hm with hm | hm
          · subst hm; exact ⟨rfl, rfl, rfl⟩
          · exact ih5 m hm
      · simp only [donorMoves, if_neg h]
        refine ⟨by simp, by simp, by simp, by omega, by simp⟩

/-- Invariants of the outer donor loop of the base builder. -/
lemma planLoop_spec (book target : Nat) :
    ∀ (donors : List Holding) (recips : List Nat) (covered : Nat),
    (∃ rest, ((planLoop book target donors recips covered).map (·.toLibraryId))
        ++ rest = recips)
    ∧ (∀ m ∈ planLoop book target donors recips covered,
        m.bookId = book ∧ m.quantity = 1
          ∧ m.fromLibraryId ∈ donors.map (·.libraryId))
    ∧ covered + (planLoop book target donors recips covered).length
        ≤ max covered target
    ∧ ((donors.map (·.libraryId)).Nodup →
        ∀ d ∈ donors, fromCount (planLoop book target donors recips covered)
          d.libraryId ≤ (d.quantity - 1).toNat)
    ∧ (∀ l, l ∉ donors.map (·.libraryId) →
        fromCount (planLoop book target donors recips covered) l = 0)
  | [], recips, covered => by
      refine ⟨⟨recips, by simp [planLoop]⟩, by simp [planLoop],
        by simp [planLoop], by simp [planLoop], by simp [planLoop, fromCount]⟩
  | d :: ds, recips, covered => by
      obtain ⟨hm1, hm2, hm3, hm4, hm5⟩ :=
        donorMoves_spec book d.libraryId target recips (d.quantity - 1).toNat covered
      set p := donorMoves book d.libraryId target (d.quantity - 1).toNat recips covered
        with hp
      by_cases h : target ≤ p.2.2
      · simp only [planLoop, ← hp, if_pos h]
        refine ⟨⟨p.2.1, hm1⟩, ?_, ?_, ?_, ?_⟩
        · intro m hm
          obtain ⟨h1, h2, h3⟩ := hm5 m hm
          exact ⟨h1, h3, by rw [h2]; exact List.mem_map_of_mem _ (List.mem_cons_self _ _)⟩
        · omega
        · intro hnd d' hd'
          rcases List.mem_cons.mp hd' with hd' | hd'
          · subst hd'
            rw [fromCount_eq_length p.1 d'.libraryId (fun m hm => (hm5 m hm).2.1)]
            exact hm3
          · rw [fromCount_eq_zero p.1 d'.libraryId]
            · omega
            · intro m hm
              rw [(hm5 m hm).2.1]
              intro hc
              have : d'.libraryId ∈ ds.map (·.libraryId) := List.mem_map_of_mem _ hd'
              rw [← hc] at this
              exact (List.nodup_cons.mp hnd).1 this
        · intro l hl
          refine fromCount_eq_zero p.1 l (fun m hm => ?_)
          rw [(hm5 m hm).2.1]
          intro hc
          exact hl (hc ▸ List.mem_map_of_mem _ (List.mem_cons_self _ _))
      · obtain ⟨⟨rest2, ht1⟩, ht2, ht3, ht4, ht5⟩ :=
          planLoop_spec book target ds p.2.1 p.2.2
        simp only [planLoop, ← hp, if_neg h]
        refine ⟨?_, ?_, ?_, ?_, ?_⟩
        · refine ⟨rest2, ?_⟩
          rw [List.map_append, List.append_assoc, ht1, hm1]
        · intro m hm
          rcases List.mem_append.mp hm with hm | hm
          · obtain ⟨h1, h2, h3⟩ := hm5 m hm
            exact ⟨h1, h3,
              by rw [h2]; exact List.mem_map_of_mem _ (List.mem_cons_self _ _)⟩
          · obtain ⟨h1, h2, h3⟩ := ht2 m hm
            exact ⟨h1, h2, List.mem_map.mpr
              (by
                obtain ⟨a, ha, hae⟩ := List.mem_map.mp h3
                exact ⟨a, List.mem_cons_of_mem _ ha, hae⟩)⟩
        · rw [List.length_append]
          omega
        · intro hnd d' hd'
          have hndds : (ds.map (·.libraryId)).Nodup := (List.nodup_cons.mp hnd).2
          rw [fromCount_append]
          rcases List.mem_cons.mp hd' with hd' | hd'
          · subst hd'
            rw [fromCount_eq_length p.1 d'.libraryId (fun m hm => (hm5 m hm).2.1),
              ht5 d'.libraryId (List.nodup_cons.mp hnd).1]
            omega
          · rw [fromCount_eq_zero p.1 d'.libraryId]
            · have := ht4 hndds d' hd'
              omega
            · intro m hm
              rw [(hm5 m hm).2.1]
              intro hc
              have : d'.libraryId ∈ ds.map (·.libraryId) := List.mem_map_of_mem _ hd'
              rw [← hc] at this
              exact (List.nodup_cons.mp hnd).1 this
        · intro l hl
          rw [fromCount_append,
            fromCount_eq_zero p.1 l (fun m hm => by
              rw [(hm5 m hm).2.1]
              intro hc
              exact hl (hc ▸ List.mem_map_of_mem _ (List.mem_cons_self _ _))),
            ht5 l (fun hc => hl (by
              obtain ⟨a, ha, hae⟩ := List.mem_map.mp hc
              exact List.mem_map.mpr ⟨a, List.mem_cons_of_mem _ ha, hae⟩))]

/-! ## Free-capacity tracking -/

lemma fcGet_fcDec_self (fc : FreeCap) (l : Nat) (h : 0 < fcGet fc l) :
    fcGet (fcDec fc l) l = fcGet fc l - 1 := by
  unfold fcGet fcDec
  rw [List.find?_map]
  have hpred : ((fun p : Nat × Int => p.1 == l) ∘ fun p : Nat × Int =>
      if p.1 == l then (p.1, p.2 - 1) else p) = fun p : Nat × Int => p.1 == l := by
    funext p
    by_cases hp : p.1 = l <;> simp [hp]
  rw [hpred]
  cases hf : fc.find? (fun p => p.1 == l) with
  | none =>
      unfold fcGet at h
      rw [hf] at h
      simp at h
  | some e =>
      have he : e.1 = l := by simpa using List.find?_some hf
      simp [he]

lemma fcGet_fcDec_ne (fc : FreeCap) (l l' : Nat) (h : l' ≠ l) :
    fcGet (fcDec fc l) l' = fcGet fc l' := by
  unfold fcGet fcDec
  rw [List.find?_map]
  have hpred : ((fun p : Nat × Int => p.1 == l') ∘ fun p : Nat × Int =>
      if p.1 == l then (p.1, p.2 - 1) else p) = fun p : Nat × Int => p.1 == l' := by
    funext p
    by_cases hp : p.1 = l <;> simp [hp]
  rw [hpred]
  cases hf : fc.find? (fun p => p.1 == l') with
  | none => simp
  | some e =>
      have he : e.1 = l' := by simpa using List.find?_some hf
      have : ¬(e.1 = l) := by rw [he]; exact h
      simp [this]

/-- The free-capacity map after a stretch of planning equals the starting map
minus one per move into each library, and a library that received at least one
move has non-negative tracked free capacity afterwards. -/
def TracksMoves (fc fc' : FreeCap) (ms : List Move) : Prop :=
  ∀ l, fcGet fc' l = fcGet fc l - (toCount ms l : Int)
    ∧ (0 < toCount ms l → 0 ≤ fcGet fc' l)

lemma tracksMoves_nil (fc : FreeCap) : TracksMoves fc fc [] := by
  intro l
  simp [toCount]

lemma tracksMoves_comp (fc1 fc2 fc3 : FreeCap) (ms1 ms2 : List Move)
    (h1 : TracksMoves fc1 fc2 ms1) (h2 : TracksMoves fc2 fc3 ms2) :
    TracksMoves fc1 fc3 (ms1 ++ ms2) := by
  intro l
  obtain ⟨e1, n1⟩ := h1 l
  obtain ⟨e2, n2⟩ := h2 l
  rw [toCount_append]
  constructor
  · rw [e2, e1]
    push_cast
    ring
  · intro hpos
    by_cases hc : 0 < toCount ms2 l
    · exact n2 hc
    · have hz : toCount ms2 l = 0 := by omega
      rw [e2, hz]
      simpa using n1 (by omega)

/-- The conjunction of invariants of the inner loop of the capacity-aware
builder, stated of its result tuple. -/
def DMCapSpec (book dlib target canMove : Nat) (recips : List Nat)
    (covered : Nat) (fc : FreeCap)
    (r : List Move × List Nat × Nat × FreeCap) : Prop :=
  List.Sublist ((r.1.map (·.toLibraryId)) ++ r.2.1) recips
    ∧ r.2.2.1 = covered + r.1.length
    ∧ r.1.length ≤ canMove
    ∧ r.2.2.1 ≤ max covered target
    ∧ (∀ m ∈ r.1, m.bookId = book ∧ m.fromLibraryId = dlib ∧ m.quantity = 1)
    ∧ TracksMoves fc r.2.2.2 r.1

/-- Invariants of the inner loop of the capacity-aware builder. -/
lemma donorMovesCap_spec (book dlib target : Nat) :
    ∀ (recips : List Nat) (canMove covered : Nat) (fc : FreeCap),
    DMCapSpec book dlib target canMove recips covered fc
      (donorMovesCap book dlib target recips canMove covered fc)
  | [], canMove, covered, fc => by
      refine ⟨by simpa [donorMovesCap, DMCapSpec] using List.Sublist.refl [],
        by simp [donorMovesCap, DMCapSpec], by simp [donorMovesCap, DMCapSpec],
        by simp [donorMovesCap, DMCapSpec], by simp [donorMovesCap, DMCapSpec],
        by simpa [donorMovesCap, DMCapSpec] using tracksMoves_nil fc⟩
  | r :: rs, canMove, covered, fc => by
      by_cases hcond : 0 < canMove ∧ covered < target
      · by_cases hfree : fcGet fc r ≤ 0
        · obtain ⟨ih1, ih2, ih3, ih4, ih5, ih6⟩ :=
            donorMovesCap_spec book dlib target rs canMove covered fc
          unfold DMCapSpec
          simp only [donorMovesCap, if_pos hcond, if_pos hfree]
          exact ⟨ih1.trans (List.sublist_cons_self r rs), ih2, ih3, ih4, ih5, ih6⟩
        · obtain ⟨ih1, ih2, ih3, ih4, ih5, ih6⟩ :=
            donorMovesCap_spec book dlib target rs (canMove - 1) (covered + 1)
              (fcDec fc r)
          unfold DMCapSpec
          simp only [donorMovesCap, if_pos hcond, if_neg hfree]
          set q := donorMovesCap book dlib target rs (canMove - 1) (covered + 1)
            (fcDec fc r) with hq
      -- after `set`, the induction hypotheses are phrased over `q`
          refine ⟨?_, ?_, ?_, ?_, ?_, ?_⟩
          · exact List.Sublist.cons₂ r ih1
          · simp only [List.length_cons]
            omega
          · simp only [List.length_cons]
            omega
          · omega
          · intro m hm
            rcases List.mem_cons.mp hm with hm | hm
            · subst hm; exact ⟨rfl, rfl, rfl⟩
            · exact ih5 m hm
          · intro l
            obtain ⟨e1, n1⟩ := ih6 l
            rw [toCount_cons]
            by_cases hlr : r = l
            · subst hlr
              have hfree' : 0 < fcGet fc r := by omega
              refine ⟨?_, ?_⟩
              · rw [e1, fcGet_fcDec_self fc r hfree']
                simp only [if_pos rfl]
                push_cast
                ring
              · intro _
                by_cases hp : 0 < toCount q.1 r
                · exact n1 hp
                · have hz : toCount q.1 r = 0 := by omega
                  rw [e1, fcGet_fcDec_self fc r hfree', hz]
                  simp
                  omega
            · refine ⟨?_, ?_⟩
              · rw [e1, fcGet_fcDec_ne fc r l (fun c => hlr c.symm)]
                simp only [if_neg hlr]
                push_cast
                ring
              · intro hpos
                refine n1 ?_
                simp only [if_neg hlr] at hpos
                omega
      · unfold DMCapSpec
        simp only [donorMovesCap, if_neg hcond]
        refine ⟨by simpa using List.Sublist.refl (r :: rs), by simp, by simp,
          by omega, by simp, by simpa using tracksMoves_nil fc⟩

/-- Invariants of the outer donor loop of the capacity-aware builder. -/
def PLCapSpec (book target : Nat) (donors : List Holding) (recips : List Nat)
    (covered : Nat) (fc : FreeCap) (r : List Move × FreeCap) : Prop :=
  (∃ rest, List.Sublist ((r.1.map (·.toLibraryId)) ++ rest) recips)
    ∧ (∀ m ∈ r.1, m.bookId = book ∧ m.quantity = 1
        ∧ m.fromLibraryId ∈ donors.map (·.libraryId))
    ∧ covered + r.1.length ≤ max covered target
    ∧ ((donors.map (·.libraryId)).Nodup →
        ∀ d ∈ donors, fromCount r.1 d.libraryId ≤ (d.quantity - 1).toNat)
    ∧ (∀ l, l ∉ donors.map (·.libraryId) → fromCount r.1 l = 0)
    ∧ TracksMoves fc r.2 r.1

lemma planLoopCap_spec (book target : Nat) :
    ∀ (donors : List Holding) (recips : List Nat) (covered : Nat) (fc : FreeCap),
    PLCapSpec book target donors recips covered fc
      (planLoopCap book target donors recips covered fc)
  | [], recips, covered, fc => by
      refine ⟨⟨recips, by simpa [planLoopCap] using List.Sublist.refl recips⟩,
        by simp [planLoopCap], by simp [planLoopCap],
        by simp [planLoopCap], by simp [planLoopCap, fromCount],
        by simpa [planLoopCap] using tracksMoves_nil fc⟩
  | d :: ds, recips, covered, fc => by
      obtain ⟨hm1, hm2, hm3, hm4, hm5, hm6⟩ :=
        donorMovesCap_spec book d.libraryId target recips (d.quantity - 1).toNat
          covered fc
      set p := donorMovesCap book d.libraryId target recips (d.quantity - 1).toNat
        covered fc with hp
      by_cases h : target ≤ p.2.2.1
      · unfold PLCapSpec
        simp only [planLoopCap, ← hp, if_pos h]
        refine ⟨⟨p.2.1, hm1⟩, ?_, ?_, ?_, ?_, hm6⟩
        · intro m hm
          obtain ⟨h1, h2, h3⟩ := hm5 m hm
          exact ⟨h1, h3,
            by rw [h2]; exact List.mem_map_of_mem _ (List.mem_cons_self _ _)⟩
        · omega
        · intro hnd d' hd'
          rcases List.mem_cons.mp hd' with hd' | hd'
          · subst hd'
            rw [fromCount_eq_length p.1 d'.libraryId (fun m hm => (hm5 m hm).2.1)]
            exact hm3
          · rw [fromCount_eq_zero p.1 d'.libraryId]
            · omega
            · intro m hm
              rw [(hm5 m hm).2.1]
              intro hc
              have : d'.libraryId ∈ ds.map (·.libraryId) := List.mem_map_of_mem _ hd'
              rw [← hc] at this
              exact (List.nodup_cons.mp hnd).1 this
        · intro l hl
          refine fromCount_eq_zero p.1 l (fun m hm => ?_)
          rw [(hm5 m hm).2.1]
          intro hc
          exact hl (hc ▸ List.mem_map_of_mem _ (List.mem_cons_self _ _))
      · obtain ⟨⟨rest2, ht1⟩, ht2, ht3, ht4, ht5, ht6⟩ :=
          planLoopCap_spec book target ds p.2.1 p.2.2.1 p.2.2.2
        unfold PLCapSpec
        simp only [planLoopCap, ← hp, if_neg h]
        set q := planLoopCap book target ds p.2.1 p.2.2.1 p.2.2.2 with hq
        refine ⟨?_, ?_, ?_, ?_, ?_, ?_⟩
        · refine ⟨rest2, ?_⟩
          rw [List.map_append, List.append_assoc]
          exact ((ht1.append_left (p.1.map (·.toLibraryId))).trans hm1)
        · intro m hm
          rcases List.mem_append.mp hm with hm | hm
          · obtain ⟨h1, h2, h3⟩ := hm5 m hm
            exact ⟨h1, h3,
              by rw [h2]; exact List.mem_map_of_mem _ (List.mem_cons_self _ _)⟩
          · obtain ⟨h1, h2, h3⟩ := ht2 m hm
            exact ⟨h1, h2, List.mem_map.mpr
              (by
                obtain ⟨a, ha, hae⟩ := List.mem_map.mp h3
                exact ⟨a, List.mem_cons_of_mem _ ha, hae⟩)⟩
        · rw [List.length_append]
          omega
        · intro hnd d' hd'
          have hndds : (ds.map (·.libraryId)).Nodup := (List.nodup_cons.mp hnd).2
          rw [fromCount_append]
          rcases List.mem_cons.mp hd' with hd' | hd'
          · subst hd'
            rw [fromCount_eq_length p.1 d'.libraryId (fun m hm => (hm5 m hm).2.1),
              ht5 d'.libraryId (List.nodup_cons.mp hnd).1]
            omega
          · rw [fromCount_eq_zero p.1 d'.libraryId]
            · have := ht4 hndds d' hd'
              omega
            · intro m hm
              rw [(hm5 m hm).2.1]
              intro hc
              have : d'.libraryId ∈ ds.map (·.libraryId) := List.mem_map_of_mem _ hd'
              rw [← hc] at this
              exact (List.nodup_cons.mp hnd).1 this
        · intro l hl
          rw [fromCount_append,
            fromCount_eq_zero p.1 l (fun m hm => by
              rw [(hm5 m hm).2.1]
              intro hc
              exact hl (hc ▸ List.mem_map_of_mem _ (List.mem_cons_self _ _))),
            ht5 l (fun hc => hl (by
              obtain ⟨a, ha, hae⟩ := List.mem_map.mp hc
              exact List.mem_map.mpr ⟨a, List.mem_cons_of_mem _ ha, hae⟩))]
        · exact tracksMoves_comp fc p.2.2.2 q.2 p.1 q.1 hm6 ht6

/-! ## Query lemmas under the store invariants -/

lemma qtyOf_nonneg (hs : List Holding) (l b : Nat)
    (hq : ∀ h ∈ hs, 0 ≤ h.quantity) : 0 ≤ qtyOf hs l b := by
  refine List.sum_nonneg ?_
  intro x hx
  obtain ⟨h, hh, hhe⟩ := List.mem_map.mp hx
  exact hhe ▸ hq h (List.mem_of_mem_filter hh)

lemma row_le_qtyOf (hs : List Holding) (h : Holding) (hmem : h ∈ hs)
    (hq : ∀ h' ∈ hs, 0 ≤ h'.quantity) :
    h.quantity ≤ qtyOf hs h.libraryId h.bookId := by
  refine List.single_le_sum ?_ _ ?_
  · intro x hx
    obtain ⟨h', hh', hhe⟩ := List.mem_map.mp hx
    exact hhe ▸ hq h' (List.mem_of_mem_filter hh')
  · refine List.mem_map.mpr ⟨h, ?_, rfl⟩
    exact List.mem_filter.mpr ⟨hmem, by simp⟩

lemma mem_hasSet_iff (hs : List Holding) (b l : Nat)
    (hq : ∀ h ∈ hs, 0 ≤ h.quantity) :
    l ∈ hasSet hs b ↔ 0 < qtyOf hs l b := by
  constructor
  · intro hl
    obtain ⟨h, hh, hhe⟩ := List.mem_map.mp (List.mem_dedup.mp hl)
    have hh' := List.mem_filter.mp hh
    have hhf := List.mem_filter.mp hh'.1
    have hbook : h.bookId = b := by simpa using hhf.2
    have hpos : 0 < h.quantity := by simpa using hh'.2
    have := row_le_qtyOf hs h (hhf.1) hq
    rw [hhe, hbook] at this
    omega
  · intro hpos
    by_contra hl
    have hz : ∀ x ∈ (rowsFor hs l b).map (·.quantity), x ≤ 0 := by
      intro x hx
      obtain ⟨h, hh, hhe⟩ := List.mem_map.mp hx
      have hhf := List.mem_filter.mp hh
      obtain ⟨h1, h2⟩ : h.libraryId = l ∧ h.bookId = b := by
        simpa [Bool.and_eq_true, beq_iff_eq] using hhf.2
      by_contra hxpos
      refine hl (List.mem_dedup.mpr (List.mem_map.mpr ⟨h, ?_, h1⟩))
      refine List.mem_filter.mpr ⟨List.mem_filter.mpr ⟨hhf.1, by simp [h2]⟩, ?_⟩
      simp only [decide_eq_true_eq]
      omega
    have hsum : ∀ xs : List Int, (∀ x ∈ xs, x ≤ 0) → xs.sum ≤ 0 := by
      intro xs
      induction xs with
      | nil => simp
      | cons y ys ihy =>
          intro hy
          rw [List.sum_cons]
          have h1 := hy y (List.mem_cons_self _ _)
          have h2 := ihy (fun x hx => hy x (List.mem_cons_of_mem _ hx))
          omega
    have : qtyOf hs l b ≤ 0 := hsum _ hz
    omega

lemma qtyOf_eq_zero_of_not_hasSet (hs : List Holding) (b l : Nat)
    (hq : ∀ h ∈ hs, 0 ≤ h.quantity) (hl : l ∉ hasSet hs b) :
    qtyOf hs l b = 0 := by
  have h1 := qtyOf_nonneg hs l b hq
  have h2 : ¬(0 < qtyOf hs l b) := fun hc => hl ((mem_hasSet_iff hs b l hq).mpr hc)
  omega

lemma rowsFor_eq_nil_of_not_mem (hs : List Holding) (l b : Nat)
    (h : (l, b) ∉ hs.map (fun h => (h.libraryId, h.bookId))) :
    rowsFor hs l b = [] := by
  rw [rowsFor, List.filter_eq_nil_iff]
  intro x hx
  intro hc
  obtain ⟨h1, h2⟩ : x.libraryId = l ∧ x.bookId = b := by
    simpa [Bool.and_eq_true, beq_iff_eq] using hc
  exact h (List.mem_map.mpr ⟨x, hx, by rw [h1, h2]⟩)

lemma rowsFor_length_le_one (hs : List Holding) (l b : Nat)
    (hnd : (hs.map (fun h => (h.libraryId, h.bookId))).Nodup) :
    (rowsFor hs l b).length ≤ 1 := by
  induction hs with
  | nil => simp [rowsFor]
  | cons h t ih =>
      have hnd2 := hnd
      rw [List.map_cons, List.nodup_cons] at hnd2
      rw [rowsFor_cons]
      by_cases hk : (h.libraryId == l && h.bookId == b) = true
      · rw [if_pos hk]
        obtain ⟨h1, h2⟩ : h.libraryId = l ∧ h.bookId = b := by
          simpa [Bool.and_eq_true, beq_iff_eq] using hk
        have : rowsFor t l b = [] := by
          refine rowsFor_eq_nil_of_not_mem t l b ?_
          rw [← h1, ← h2]
          exact hnd2.1
        simp [this]
      · rw [if_neg hk]
        exact ih hnd2.2

lemma rowsFor_length_eq_one (hs : List Holding) (l b : Nat)
    (hnd : (hs.map (fun h => (h.libraryId, h.bookId))).Nodup)
    (hpos : 0 < qtyOf hs l b) :
    (rowsFor hs l b).length = 1 := by
  have hle := rowsFor_length_le_one hs l b hnd
  have hne : rowsFor hs l b ≠ [] := by
    intro hc
    rw [qtyOf, hc] at hpos
    simp at hpos
  have : 0 < (rowsFor hs l b).length := List.length_pos.mpr hne
  omega

/-! ## Permutation facts about the stable sort -/

lemma insertLe_perm {α : Type} (le : α → α → Bool) (a : α) :
    ∀ l : List α, List.Perm (insertLe le a l) (a :: l)
  | [] => List.Perm.refl _
  | b :: t => by
      unfold insertLe
      by_cases h : le a b = true
      · rw [if_pos h]
      · rw [if_neg h]
        exact ((insertLe_perm le a t).cons b).trans (List.Perm.swap a b t)

lemma sortLe_perm {α : Type} (le : α → α → Bool) :
    ∀ l : List α, List.Perm (sortLe le l) l
  | [] => List.Perm.refl _
  | a :: t => (insertLe_perm le a (sortLe le t)).trans ((sortLe_perm le t).cons a)

lemma mem_sortLe {α : Type} (le : α → α → Bool) (l : List α) (a : α) :
    a ∈ sortLe le l ↔ a ∈ l :=
  (sortLe_perm le l).mem_iff

/-! ## Per-book builder specifications -/

lemma mem_donorsFor_iff (hs : List Holding) (b : Nat) (h : Holding) :
    h ∈ donorsFor hs b ↔ h ∈ hs ∧ h.bookId = b ∧ 1 < h.quantity := by
  unfold donorsFor
  rw [mem_sortLe]
  constructor
  · intro hm
    have hf := List.mem_filter.mp hm
    have hh := List.mem_filter.mp hf.1
    exact ⟨hh.1, by simpa using hh.2, by simpa using hf.2⟩
  · intro hm
    exact List.mem_filter.mpr
      ⟨List.mem_filter.mpr ⟨hm.1, by simp [hm.2.1]⟩, by simp [hm.2.2]⟩

lemma donorsFor_libs_nodup (hs : List Holding) (b : Nat)
    (hnd : (hs.map (fun h => (h.libraryId, h.bookId))).Nodup) :
    ((donorsFor hs b).map (·.libraryId)).Nodup := by
  have hperm : List.Perm ((donorsFor hs b).map (·.libraryId))
      (((holdingsFor hs b).filter (fun h => decide (1 < h.quantity))).map
        (·.libraryId)) :=
    (sortLe_perm _ _).map _
  rw [hperm.nodup_iff]
  set L := (holdingsFor hs b).filter (fun h => decide (1 < h.quantity)) with hL
  have hsub : List.Sublist L hs :=
    (List.filter_sublist _).trans (List.filter_sublist _)
  have hkeysL : (L.map (fun h => (h.libraryId, h.bookId))).Nodup :=
    (hsub.map _).nodup hnd
  have hbook : ∀ h ∈ L, h.bookId = b := by
    intro h hh
    have := (List.mem_filter.mp (List.mem_of_mem_filter hh)).2
    simpa using this
  have hmapeq : L.map (·.libraryId)
      = (L.map (fun h => (h.libraryId, h.bookId))).map Prod.fst := by
    rw [List.map_map]
    rfl
  rw [hmapeq]
  refine List.Nodup.map_on ?_ hkeysL
  intro x hx y hy hxy
  obtain ⟨hx', hhx, hxe⟩ := List.mem_map.mp hx
  obtain ⟨hy', hhy, hye⟩ := List.mem_map.mp hy
  rw [← hxe, ← hye]
  rw [← hxe, ← hye] at hxy
  simp only [Prod.mk.injEq]
  exact ⟨hxy, by rw [hbook hx' hhx, hbook hy' hhy]⟩

/-- Facts about the plan one builder run emits for one book, against the
pre-run store: unit quantities for the right book, sources are strict donors,
destinations are uncovered existing libraries, pairwise distinct, per-donor
counts leave at least one copy, and coverage would not pass the target. -/
def BookPlanSpec (db : DB) (book : Nat) (ms : List Move) : Prop :=
  (∀ m ∈ ms, m.bookId = book ∧ m.quantity = 1)
    ∧ (∀ m ∈ ms, 1 < qtyOf db.holdings m.fromLibraryId book)
    ∧ (∀ m ∈ ms, qtyOf db.holdings m.toLibraryId book = 0)
    ∧ (∀ m ∈ ms, m.toLibraryId ∈ allLibIds db)
    ∧ (ms.map (·.toLibraryId)).Nodup
    ∧ (∀ l, 0 < fromCount ms l →
        (fromCount ms l : Int) ≤ qtyOf db.holdings l book - 1)
    ∧ (ms = [] ∨ coverage db.holdings book + ms.length
        ≤ min db.libs.length (totalOf db.holdings book).toNat)

lemma bookPlanSpec_nil (db : DB) (book : Nat) : BookPlanSpec db book [] := by
  refine ⟨by simp, by simp, by simp, by simp, by simp, ?_, Or.inl rfl⟩
  intro l hl
  simp [fromCount] at hl

/-- The base builder, with its `let` bindings written out. -/
lemma buildPlanForBook_eq (db : DB) (book nlibs : Nat) :
    buildPlanForBook db book nlibs
      = if totalOf db.holdings book == 0 then []
        else if min nlibs (totalOf db.holdings book).toNat
            ≤ coverage db.holdings book then []
        else planLoop book (min nlibs (totalOf db.holdings book).toNat)
            (donorsFor db.holdings book)
            ((allLibIds db).filter
              (fun l => !((hasSet db.holdings book).contains l)))
            (coverage db.holdings book) := rfl

/-- From a library membership in the filtered recipient list. -/
lemma mem_recipients (db : DB) (book l : Nat)
    (hl : l ∈ (allLibIds db).filter
      (fun x => !((hasSet db.holdings book).contains x))) :
    l ∈ allLibIds db ∧ l ∉ hasSet db.holdings book := by
  have := List.mem_filter.mp hl
  refine ⟨this.1, ?_⟩
  have h2 := this.2
  rw [Bool.not_eq_eq_eq_not, Bool.not_true] at h2
  simpa using h2

lemma buildPlanForBook_spec (db : DB) (book : Nat) (hwf : WF db) :
    BookPlanSpec db book (buildPlanForBook db book db.libs.length) := by
  obtain ⟨hlibs, hkeys, hq, hmem, hcap⟩ := hwf
  rw [buildPlanForBook_eq]
  by_cases h0 : (totalOf db.holdings book == 0) = true
  · rw [if_pos h0]
    exact bookPlanSpec_nil db book
  · rw [if_neg h0]
    set target := min db.libs.length (totalOf db.holdings book).toNat with htarget
    set covered := coverage db.holdings book with hcovered
    by_cases h1 : target ≤ covered
    · rw [if_pos h1]
      exact bookPlanSpec_nil db book
    · rw [if_neg h1]
      set recips := (allLibIds db).filter
        (fun l => !((hasSet db.holdings book).contains l)) with hrecips
      obtain ⟨⟨rest, hrest⟩, hmm, hlen, hfcb, hfc0⟩ :=
        planLoop_spec book target (donorsFor db.holdings book) recips covered
      set ms := planLoop book target (donorsFor db.holdings book) recips covered
        with hms
      have hdest_recips : ∀ m ∈ ms, m.toLibraryId ∈ recips := by
        intro m hm
        rw [← hrest]
        exact List.mem_append_left _ (List.mem_map_of_mem _ hm)
      refine ⟨?_, ?_, ?_, ?_, ?_, ?_, ?_⟩
      · intro m hm
        exact ⟨(hmm m hm).1, (hmm m hm).2.1⟩
      · intro m hm
        obtain ⟨d, hd, hde⟩ := List.mem_map.mp (hmm m hm).2.2
        obtain ⟨hdh, hdb, hdq⟩ := (mem_donorsFor_iff _ _ _).mp hd
        have := row_le_qtyOf db.holdings d hdh hq
        rw [hde, hdb] at this
        omega
      · intro m hm
        obtain ⟨_, hnotin⟩ := mem_recipients db book _ (hdest_recips m hm)
        exact qtyOf_eq_zero_of_not_hasSet db.holdings book _ hq hnotin
      · intro m hm
        exact (mem_recipients db book _ (hdest_recips m hm)).1
      · have hrecnd : recips.Nodup := hlibs.filter _
        have : (ms.map (·.toLibraryId) ++ rest).Nodup := hrest ▸ hrecnd
        exact this.of_append_left
      · intro l hl
        by_cases hmemd : l ∈ (donorsFor db.holdings book).map (·.libraryId)
        · obtain ⟨d, hd, hde⟩ := List.mem_map.mp hmemd
          have hcount := hfcb (donorsFor_libs_nodup db.holdings book hkeys) d hd
          obtain ⟨hdh, hdb, hdq⟩ := (mem_donorsFor_iff _ _ _).mp hd
          have hrow := row_le_qtyOf db.holdings d hdh hq
          rw [hde, hdb] at hrow
          rw [hde] at hcount
          have h2 : ((d.quantity - 1).toNat : Int) = d.quantity - 1 :=
            Int.toNat_of_nonneg (by omega)
          omega
        · rw [hfc0 l hmemd] at hl
          omega
      · right
        have := hlen
        omega

/-! ## Capacity builder specification -/

lemma fcDec_keys (fc : FreeCap) (l : Nat) :
    (fcDec fc l).map (·.1) = fc.map (·.1) := by
  unfold fcDec
  rw [List.map_map]
  refine List.map_congr_left ?_
  intro p _
  by_cases hp : p.1 = l <;> simp [hp]

lemma donorMovesCap_keys (book dlib target : Nat) :
    ∀ (recips : List Nat) (canMove covered : Nat) (fc : FreeCap),
    ((donorMovesCap book dlib target recips canMove covered fc).2.2.2).map (·.1)
      = fc.map (·.1)
  | [], _, _, fc => rfl
  | r :: rs, canMove, covered, fc => by
      by_cases hcond : 0 < canMove ∧ covered < target
      · by_cases hfree : fcGet fc r ≤ 0
        · simp only [donorMovesCap, if_pos hcond, if_pos hfree]
          exact donorMovesCap_keys book dlib target rs canMove covered fc
        · simp only [donorMovesCap, if_pos hcond, if_neg hfree]
          rw [donorMovesCap_keys book dlib target rs (canMove - 1) (covered + 1)
            (fcDec fc r), fcDec_keys]
      · simp only [donorMovesCap, if_neg hcond]

lemma planLoopCap_keys (book target : Nat) :
    ∀ (donors : List Holding) (recips : List Nat) (covered : Nat) (fc : FreeCap),
    ((planLoopCap book target donors recips covered fc).2).map (·.1)
      = fc.map (·.1)
  | [], _, _, fc => rfl
  | d :: ds, recips, covered, fc => by
      set p := donorMovesCap book d.libraryId target recips (d.quantity - 1).toNat
        covered fc with hp
      by_cases h : target ≤ p.2.2.1
      · simp only [planLoopCap, ← hp, if_pos h]
        rw [hp]
        exact donorMovesCap_keys book d.libraryId target recips
          (d.quantity - 1).toNat covered fc
      · simp only [planLoopCap, ← hp, if_neg h]
        rw [planLoopCap_keys book target ds p.2.1 p.2.2.1 p.2.2.2, hp]
        exact donorMovesCap_keys book d.libraryId target recips
          (d.quantity - 1).toNat covered fc

lemma computeFreeCapacity_keys (db : DB) :
    (computeFreeCapacity db).map (·.1) = allLibIds db := by
  unfold computeFreeCapacity allLibIds
  rw [List.map_map]
  rfl

/-- The capacity-aware builder, with its `let` bindings written out. -/
lemma buildPlanForBookCap_eq (db : DB) (book nlibs : Nat) (fc0 : FreeCap) :
    buildPlanForBookCap db book nlibs fc0
      = (let fc := if fc0.isEmpty then computeFreeCapacity db else fc0
         if totalOf db.holdings book == 0 then ([], fc)
         else if min nlibs (totalOf db.holdings book).toNat
             ≤ coverage db.holdings book then ([], fc)
         else planLoopCap book (min nlibs (totalOf db.holdings book).toNat)
            (donorsFor db.holdings book)
            (((fc.map (·.1)).filter
                (fun l => !((hasSet db.holdings book).contains l))).filter
              (fun l => decide (0 < fcGet fc l)))
            (coverage db.holdings book) fc) := rfl

/-- The plan of the capacity-aware builder satisfies the same per-book facts
as the base builder's, and the free-capacity map tracks its moves and keeps
its key set. -/
lemma buildPlanForBookCap_spec (db : DB) (book : Nat) (fc0 : FreeCap)
    (hwf : WF db)
    (hkeys0 : fc0 = [] ∨ fc0.map (·.1) = allLibIds db) :
    BookPlanSpec db book (buildPlanForBookCap db book db.libs.length fc0).1
    ∧ TracksMoves (if fc0.isEmpty then computeFreeCapacity db else fc0)
        (buildPlanForBookCap db book db.libs.length fc0).2
        (buildPlanForBookCap db book db.libs.length fc0).1
    ∧ ((buildPlanForBookCap db book db.libs.length fc0).2.map (·.1)
        = allLibIds db) := by
  obtain ⟨hlibs, hkeysnd, hq, hmemlib, hcapn⟩ := hwf
  set fc := if fc0.isEmpty then computeFreeCapacity db else fc0 with hfc
  have hfckeys : fc.map (·.1) = allLibIds db := by
    rw [hfc]
    by_cases he : fc0.isEmpty
    · rw [if_pos he, computeFreeCapacity_keys]
    · rw [if_neg he]
      rcases hkeys0 with h | h
      · rw [h] at he
        simp at he
      · exact h
  rw [buildPlanForBookCap_eq]
  simp only [← hfc]
  by_cases h0 : (totalOf db.holdings book == 0) = true
  · rw [if_pos h0]
    exact ⟨bookPlanSpec_nil db book, tracksMoves_nil fc, hfckeys⟩
  · rw [if_neg h0]
    set target := min db.libs.length (totalOf db.holdings book).toNat with htarget
    set covered := coverage db.holdings book with hcovered
    by_cases h1 : target ≤ covered
    · rw [if_pos h1]
      exact ⟨bookPlanSpec_nil db book, tracksMoves_nil fc, hfckeys⟩
    · rw [if_neg h1]
      set recips := ((fc.map (·.1)).filter
          (fun l => !((hasSet db.holdings book).contains l))).filter
        (fun l => decide (0 < fcGet fc l)) with hrecips
      obtain ⟨⟨rest, hrest⟩, hmm, hlen, hfcb, hfc0, htracks⟩ :=
        planLoopCap_spec book target (donorsFor db.holdings book) recips covered fc
      set pr := planLoopCap book target (donorsFor db.holdings book) recips
        covered fc with hpr
      have hdest_recips : ∀ m ∈ pr.1, m.toLibraryId ∈ recips := by
        intro m hm
        have hmem2 : m.toLibraryId ∈ pr.1.map (·.toLibraryId) ++ rest :=
          List.mem_append_left _ (List.mem_map_of_mem _ hm)
        exact hrest.mem hmem2
      have hrec_facts : ∀ l ∈ recips,
          l ∈ allLibIds db ∧ l ∉ hasSet db.holdings book := by
        intro l hl
        have hl1 := (List.mem_filter.mp hl).1
        have := List.mem_filter.mp hl1
        refine ⟨hfckeys ▸ this.1, ?_⟩
        have h2 := this.2
        rw [Bool.not_eq_eq_eq_not, Bool.not_true] at h2
        simpa using h2
      refine ⟨⟨?_, ?_, ?_, ?_, ?_, ?_, ?_⟩, htracks, ?_⟩
      · intro m hm
        exact ⟨(hmm m hm).1, (hmm m hm).2.1⟩
      · intro m hm
        obtain ⟨d, hd, hde⟩ := List.mem_map.mp (hmm m hm).2.2
        obtain ⟨hdh, hdb, hdq⟩ := (mem_donorsFor_iff _ _ _).mp hd
        have := row_le_qtyOf db.holdings d hdh hq
        rw [hde, hdb] at this
        omega
      · intro m hm
        exact qtyOf_eq_zero_of_not_hasSet db.holdings book _ hq
          (hrec_facts _ (hdest_recips m hm)).2
      · intro m hm
        exact (hrec_facts _ (hdest_recips m hm)).1
      · have hall : (allLibIds db).Nodup := hlibs
        have hfcnd : (fc.map (·.1)).Nodup := by rw [hfckeys]; exact hall
        have hrecnd : recips.Nodup := (hfcnd.filter _).filter _
        have : (pr.1.map (·.toLibraryId) ++ rest).Nodup := hrest.nodup hrecnd
        exact this.of_append_left
      · intro l hl
        by_cases hmemd : l ∈ (donorsFor db.holdings book).map (·.libraryId)
        · obtain ⟨d, hd, hde⟩ := List.mem_map.mp hmemd
          have hcount := hfcb (donorsFor_libs_nodup db.holdings book hkeysnd) d hd
          obtain ⟨hdh, hdb, hdq⟩ := (mem_donorsFor_iff _ _ _).mp hd
          have hrow := row_le_qtyOf db.holdings d hdh hq
          rw [hde, hdb] at hrow
          rw [hde] at hcount
          have h2 : ((d.quantity - 1).toNat : Int) = d.quantity - 1 :=
            Int.toNat_of_nonneg (by omega)
          omega
        · rw [hfc0 l hmemd] at hl
          omega
      · right
        omega
      · rw [hpr, planLoopCap_keys]
        exact hfckeys

/-! ## Run-level move-list facts -/

lemma filter_book_eq_self (ms : List Move) (b : Nat)
    (h : ∀ m ∈ ms, m.bookId = b) :
    ms.filter (fun m => m.bookId == b) = ms :=
  List.filter_eq_self.mpr (fun m hm => by simp [h m hm])

lemma filter_book_eq_nil (ms : List Move) (b : Nat)
    (h : ∀ m ∈ ms, m.bookId ≠ b) :
    ms.filter (fun m => m.bookId == b) = [] :=
  List.filter_eq_nil_iff.mpr (fun m hm => by simp [h m hm])

/-- Candidate ids are pairwise distinct. -/
lemma candidateBookIds_nodup (db : DB) (nlibs : Nat) :
    (candidateBookIds db nlibs).Nodup :=
  (List.nodup_dedup _).filter _

lemma orderedCandidates_nodup (cfg : PriorityCfg) (db : DB) :
    (orderedCandidates cfg db).Nodup := by
  unfold orderedCandidates
  rw [(sortLe_perm _ _).nodup_iff]
  exact candidateBookIds_nodup db db.libs.length

/-- The base run: per-book facts of the filtered move list, and all moves
belong to candidate books. -/
lemma baseRun_spec (db : DB) (hwf : WF db) :
    ∀ (cands : List Nat), cands.Nodup →
    (∀ b, BookPlanSpec db b
        (((cands.map (fun c => buildPlanForBook db c db.libs.length)).flatten).filter
          (fun m => m.bookId == b)))
    ∧ (∀ m ∈ (cands.map (fun c => buildPlanForBook db c db.libs.length)).flatten,
        m.bookId ∈ cands)
  | [] => by
      intro _
      exact ⟨fun b => by simpa using bookPlanSpec_nil db b, by simp⟩
  | c :: cs => by
      intro hnd
      obtain ⟨ih1, ih2⟩ := baseRun_spec db hwf cs (List.nodup_cons.mp hnd).2
      have hc := buildPlanForBook_spec db c hwf
      constructor
      · intro b
        rw [List.map_cons, List.flatten_cons, List.filter_append]
        by_cases hbc : c = b
        · subst hbc
          rw [filter_book_eq_self _ _ (fun m hm => (hc.1 m hm).1),
            filter_book_eq_nil _ _ (fun m hm => by
              intro he
              exact (List.nodup_cons.mp hnd).1 (he ▸ ih2 m hm)),
            List.append_nil]
          exact hc
        · rw [filter_book_eq_nil _ _ (fun m hm => by
            rw [(hc.1 m hm).1]; exact hbc), List.nil_append]
          exact ih1 b
      · intro m hm
        rw [List.map_cons, List.flatten_cons] at hm
        rcases List.mem_append.mp hm with hm | hm
        · rw [(hc.1 m hm).1]
          exact List.mem_cons_self _ _
        · exact List.mem_cons_of_mem _ (ih2 m hm)

/-- The capacity-aware candidate fold: per-book facts of the filtered move
list, candidate membership, free-capacity tracking and key preservation. -/
lemma planForCandidates_spec (db : DB) (hwf : WF db) :
    ∀ (cands : List Nat) (fc : FreeCap), cands.Nodup →
    fc.map (·.1) = allLibIds db →
    (∀ b, BookPlanSpec db b
        ((planForCandidates db db.libs.length cands fc).1.filter
          (fun m => m.bookId == b)))
    ∧ (∀ m ∈ (planForCandidates db db.libs.length cands fc).1, m.bookId ∈ cands)
    ∧ TracksMoves fc (planForCandidates db db.libs.length cands fc).2
        (planForCandidates db db.libs.length cands fc).1
    ∧ ((planForCandidates db db.libs.length cands fc).2.map (·.1) = allLibIds db)
  | [], fc => by
      intro _ hk
      exact ⟨fun b => by simpa [planForCandidates] using bookPlanSpec_nil db b,
        by simp [planForCandidates],
        by simpa [planForCandidates] using tracksMoves_nil fc, by
          simpa [planForCandidates] using hk⟩
  | c :: cs, fc => by
      intro hnd hk
      have hnorm : (if fc.isEmpty then computeFreeCapacity db else fc) = fc := by
        by_cases he : fc.isEmpty
        · rw [if_pos he]
          have : fc = [] := List.isEmpty_iff.mp he
          subst this
          have : allLibIds db = [] := by rw [← hk]; rfl
          unfold computeFreeCapacity
          unfold allLibIds at this
          rw [List.map_eq_nil_iff.mp this]
          rfl
        · rw [if_neg he]
      obtain ⟨hb1, hb2, hb3⟩ := buildPlanForBookCap_spec db c fc hwf (Or.inr hk)
      rw [hnorm] at hb2
      set p := buildPlanForBookCap db c db.libs.length fc with hpdef
      obtain ⟨ih1, ih2, ih3, ih4⟩ :=
        planForCandidates_spec db hwf cs p.2 (List.nodup_cons.mp hnd).2 hb3
      set q := planForCandidates db db.libs.length cs p.2 with hqdef
      have hunfold : planForCandidates db db.libs.length (c :: cs) fc
          = (p.1 ++ q.1, q.2) := by
        simp only [planForCandidates, ← hpdef, ← hqdef]
      rw [hunfold]
      refine ⟨?_, ?_, ?_, ih4⟩
      · intro b
        simp only [List.filter_append]
        by_cases hbc : c = b
        · subst hbc
          rw [filter_book_eq_self _ _ (fun m hm => (hb1.1 m hm).1),
            filter_book_eq_nil _ _ (fun m hm => by
              intro he
              exact (List.nodup_cons.mp hnd).1 (he ▸ ih2 m hm)),
            List.append_nil]
          exact hb1
        · rw [filter_book_eq_nil _ _ (fun m hm => by
            rw [(hb1.1 m hm).1]; exact hbc), List.nil_append]
          exact ih1 b
      · intro m hm
        rcases List.mem_append.mp hm with hm | hm
        · rw [(hb1.1 m hm).1]
          exact List.mem_cons_self _ _
        · exact List.mem_cons_of_mem _ (ih2 m hm)
      · exact tracksMoves_comp fc p.2 q.2 p.1 q.1 hb2 ih3

/-! ## Lazy initialization of the free-capacity map -/

/-- Building with an empty held map behaves exactly like building with the
freshly computed snapshot (the lazy `if not self._free_capacity` check). -/
lemma buildCap_empty_fc (db : DB) (b n : Nat) :
    buildPlanForBookCap db b n []
      = buildPlanForBookCap db b n (computeFreeCapacity db) := by
  rw [buildPlanForBookCap_eq, buildPlanForBookCap_eq]
  simp only [List.isEmpty_nil, if_true, ite_self]

lemma planForCandidates_empty_fc (db : DB) (n : Nat) :
    ∀ cands : List Nat,
    (planForCandidates db n cands []).1
      = (planForCandidates db n cands (computeFreeCapacity db)).1
  | [] => rfl
  | c :: cs => by
      simp only [planForCandidates]
      rw [buildCap_empty_fc]

/-! ## The planned move list of each variant -/

lemma runPlanMoves_base (db : DB) :
    runPlanMoves .base db
      = ((candidateBookIds db db.libs.length).map
          (fun c => buildPlanForBook db c db.libs.length)).flatten := rfl

lemma runPlanMoves_cap (db : DB) :
    runPlanMoves .capacityAware db
      = (planForCandidates db db.libs.length
          (candidateBookIds db db.libs.length) (computeFreeCapacity db)).1 := by
  have : runPlanMoves .capacityAware db
      = (planForCandidates db db.libs.length
          (candidateBookIds db db.libs.length) []).1 := rfl
  rw [this, planForCandidates_empty_fc]

lemma runPlanMoves_prio (cfg : PriorityCfg) (db : DB) :
    runPlanMoves (.priority cfg) db
      = (planForCandidates db db.libs.length (orderedCandidates cfg db)
          (computeFreeCapacity db)).1 := by
  have : runPlanMoves (.priority cfg) db
      = (planForCandidates db db.libs.length (orderedCandidates cfg db) []).1 := rfl
  rw [this, planForCandidates_empty_fc]

/-- Every variant's planned move list satisfies the per-book plan facts, and
every move concerns a candidate book. -/
lemma runPlanMoves_spec (v : Variant) (db : DB) (hwf : WF db) :
    (∀ b, BookPlanSpec db b
        ((runPlanMoves v db).filter (fun m => m.bookId == b)))
    ∧ (∀ m ∈ runPlanMoves v db,
        m.bookId ∈ candidateBookIds db db.libs.length) := by
  cases v with
  | base =>
      rw [runPlanMoves_base]
      exact baseRun_spec db hwf _ (candidateBookIds_nodup db db.libs.length)
  | capacityAware =>
      rw [runPlanMoves_cap]
      obtain ⟨h1, h2, _, _⟩ := planForCandidates_spec db hwf
        (candidateBookIds db db.libs.length) (computeFreeCapacity db)
        (candidateBookIds_nodup db db.libs.length) (computeFreeCapacity_keys db)
      exact ⟨h1, h2⟩
  | priority cfg =>
      rw [runPlanMoves_prio]
      obtain ⟨h1, h2, _, _⟩ := planForCandidates_spec db hwf
        (orderedCandidates cfg db) (computeFreeCapacity db)
        (orderedCandidates_nodup cfg db) (computeFreeCapacity_keys db)
      refine ⟨h1, fun m hm => ?_⟩
      have := h2 m hm
      exact (sortLe_perm _ _).mem_iff.mp this

/-- The capacity-aware variants track free capacity across the whole run. -/
lemma runPlanMoves_tracks (db : DB) (hwf : WF db) (v : Variant)
    (hv : v = .capacityAware ∨ ∃ cfg, v = .priority cfg) :
    ∃ fcEnd, TracksMoves (computeFreeCapacity db) fcEnd (runPlanMoves v db) := by
  rcases hv with hv | ⟨cfg, hv⟩
  · subst hv
    rw [runPlanMoves_cap]
    obtain ⟨_, _, h3, _⟩ := planForCandidates_spec db hwf
      (candidateBookIds db db.libs.length) (computeFreeCapacity db)
      (candidateBookIds_nodup db db.libs.length) (computeFreeCapacity_keys db)
    exact ⟨_, h3⟩
  · subst hv
    rw [runPlanMoves_prio]
    obtain ⟨_, _, h3, _⟩ := planForCandidates_spec db hwf
      (orderedCandidates cfg db) (computeFreeCapacity db)
      (orderedCandidates_nodup cfg db) (computeFreeCapacity_keys db)
    exact ⟨_, h3⟩

/-- Apply runs on exactly the planned moves; planning is independent of the
dry-run flag; the library and book tables are untouched. -/
lemma runRebalance_apply (v : Variant) (db : DB) :
    (runRebalance v false db).2.holdings
        = applyPlan db.holdings (runPlanMoves v db)
    ∧ (runRebalance v false db).2.libs = db.libs
    ∧ (runRebalance v false db).2.books = db.books
    ∧ (runRebalance v false db).1 = (runRebalance v true db).1
    ∧ (runRebalance v true db).2 = db := by
  cases v with
  | base =>
      refine ⟨rfl, rfl, rfl, rfl, rfl⟩
  | capacityAware =>
      refine ⟨rfl, rfl, rfl, rfl, rfl⟩
  | priority cfg =>
      refine ⟨rfl, rfl, rfl, rfl, rfl⟩

/-! ## Effect of an applied run on each (library, book) quantity -/

lemma sum_ones (xs : List Move) (h : ∀ m ∈ xs, m.quantity = 1) :
    (xs.map (·.quantity)).sum = (xs.length : Int) := by
  induction xs with
  | nil => simp
  | cons m t ih =>
      rw [List.map_cons, List.sum_cons, h m (List.mem_cons_self _ _),
        ih (fun x hx => h x (List.mem_cons_of_mem _ hx)), List.length_cons]
      push_cast
      ring

lemma toCount_eq_zero_of_not_mem (ms : List Move) (l : Nat)
    (h : l ∉ ms.map (·.toLibraryId)) : toCount ms l = 0 := by
  unfold toCount
  rw [List.filter_eq_nil_iff.mpr (fun m hm => by
    simp only [beq_iff_eq]
    intro hc
    exact h (hc ▸ List.mem_map_of_mem _ hm))]
  rfl

lemma toCount_le_one (ms : List Move) (l : Nat)
    (hnd : (ms.map (·.toLibraryId)).Nodup) : toCount ms l ≤ 1 := by
  induction ms with
  | nil => simp [toCount]
  | cons m t ih =>
      rw [toCount_cons]
      rw [List.map_cons, List.nodup_cons] at hnd
      by_cases hm : m.toLibraryId = l
      · rw [if_pos hm, toCount_eq_zero_of_not_mem t l (hm ▸ hnd.1)]
      · rw [if_neg hm]
        simpa using ih hnd.2

lemma toCount_pos_iff (ms : List Move) (l : Nat) :
    0 < toCount ms l ↔ l ∈ ms.map (·.toLibraryId) := by
  unfold toCount
  rw [List.length_pos]
  constructor
  · intro h
    rcases hx : ms.filter (fun m => m.toLibraryId == l) with _ | ⟨m, t⟩
    · exact absurd hx h
    · have hm := List.mem_filter.mp (hx ▸ List.mem_cons_self m t)
      have : m.toLibraryId = l := by simpa using hm.2
      exact this ▸ List.mem_map_of_mem _ hm.1
  · intro h
    obtain ⟨m, hm, hme⟩ := List.mem_map.mp h
    exact List.ne_nil_of_mem (List.mem_filter.mpr ⟨hm, by simp [hme]⟩)

lemma fromCount_pos_iff (ms : List Move) (l : Nat) :
    0 < fromCount ms l ↔ l ∈ ms.map (·.fromLibraryId) := by
  unfold fromCount
  rw [List.length_pos]
  constructor
  · intro h
    rcases hx : ms.filter (fun m => m.fromLibraryId == l) with _ | ⟨m, t⟩
    · exact absurd hx h
    · have hm := List.mem_filter.mp (hx ▸ List.mem_cons_self m t)
      have : m.fromLibraryId = l := by simpa using hm.2
      exact this ▸ List.mem_map_of_mem _ hm.1
  · intro h
    obtain ⟨m, hm, hme⟩ := List.mem_map.mp h
    exact List.ne_nil_of_mem (List.mem_filter.mpr ⟨hm, by simp [hme]⟩)

lemma incAmt_eq_toCount (ms : List Move) (l b : Nat)
    (hq1 : ∀ m ∈ ms.filter (fun m => m.bookId == b), m.quantity = 1) :
    incAmt ms l b
      = (toCount (ms.filter (fun m => m.bookId == b)) l : Int) := by
  unfold incAmt toCount
  rw [List.filter_filter]
  rw [show (fun m : Move => m.toLibraryId == l && m.bookId == b)
      = (fun m : Move => m.bookId == b && m.toLibraryId == l) from
    funext (fun m => Bool.and_comm _ _)]
  refine sum_ones _ ?_
  intro m hm
  have hmm := List.mem_filter.mp hm
  have hb : (m.bookId == b) = true := by
    have h2 := hmm.2
    rw [Bool.and_eq_true] at h2
    exact h2.1
  exact hq1 m (List.mem_filter.mpr ⟨hmm.1, hb⟩)

lemma decAmt_eq_fromCount (ms : List Move) (l b : Nat)
    (hq1 : ∀ m ∈ ms.filter (fun m => m.bookId == b), m.quantity = 1) :
    decAmt ms l b
      = (fromCount (ms.filter (fun m => m.bookId == b)) l : Int) := by
  unfold decAmt fromCount
  rw [List.filter_filter]
  rw [show (fun m : Move => m.fromLibraryId == l && m.bookId == b)
      = (fun m : Move => m.bookId == b && m.fromLibraryId == l) from
    funext (fun m => Bool.and_comm _ _)]
  refine sum_ones _ ?_
  intro m hm
  have hmm := List.mem_filter.mp hm
  have hb : (m.bookId == b) = true := by
    have h2 := hmm.2
    rw [Bool.and_eq_true] at h2
    exact h2.1
  exact hq1 m (List.mem_filter.mpr ⟨hmm.1, hb⟩)

/-- Every decremented key of a run's plan has exactly one stored row: sources
are strict donors, which hold a positive (unique) row. -/
lemma runMoves_hdec (v : Variant) (db : DB) (hwf : WF db) :
    ∀ p ∈ decPairs (runPlanMoves v db),
      (rowsFor db.holdings p.1 p.2).length = 1 := by
  intro p hp
  obtain ⟨m, hm, hme⟩ := List.mem_map.mp (List.mem_dedup.mp hp)
  obtain ⟨hspec, _⟩ := runPlanMoves_spec v db hwf
  have hmf : m ∈ (runPlanMoves v db).filter (fun x => x.bookId == m.bookId) :=
    List.mem_filter.mpr ⟨hm, by simp⟩
  have hdonor := (hspec m.bookId).2.1 m hmf
  have hkeys := hwf.2.1
  rw [← hme]
  exact rowsFor_length_eq_one db.holdings m.fromLibraryId m.bookId hkeys
    (by omega)

/-- Quantity of each pair after an applied run. -/
lemma qtyOf_after_run (v : Variant) (db : DB) (hwf : WF db) (l b : Nat) :
    qtyOf (applyPlan db.holdings (runPlanMoves v db)) l b
      = qtyOf db.holdings l b
        + (toCount ((runPlanMoves v db).filter (fun m => m.bookId == b)) l : Int)
        - (fromCount ((runPlanMoves v db).filter (fun m => m.bookId == b)) l : Int) := by
  obtain ⟨hspec, _⟩ := runPlanMoves_spec v db hwf
  have hq1 : ∀ m ∈ (runPlanMoves v db).filter (fun m => m.bookId == b),
      m.quantity = 1 := fun m hm => ((hspec b).1 m hm).2
  rw [qtyOf_applyPlan db.holdings (runPlanMoves v db) l b (runMoves_hdec v db hwf),
    incAmt_eq_toCount _ _ _ hq1, decAmt_eq_fromCount _ _ _ hq1]

/-- Sign facts about each pair after an applied run: quantities stay
non-negative, a pair is positive afterwards iff it was positive before or
received a copy, and a pair that gave up copies keeps at least one. -/
lemma qtyOf_after_facts (v : Variant) (db : DB) (hwf : WF db) (l b : Nat) :
    0 ≤ qtyOf (applyPlan db.holdings (runPlanMoves v db)) l b
    ∧ (0 < qtyOf (applyPlan db.holdings (runPlanMoves v db)) l b ↔
        (0 < qtyOf db.holdings l b
          ∨ 0 < toCount ((runPlanMoves v db).filter (fun m => m.bookId == b)) l))
    ∧ (0 < fromCount ((runPlanMoves v db).filter (fun m => m.bookId == b)) l →
        1 ≤ qtyOf (applyPlan db.holdings (runPlanMoves v db)) l b) := by
  obtain ⟨hspec, _⟩ := runPlanMoves_spec v db hwf
  set msb := (runPlanMoves v db).filter (fun m => m.bookId == b) with hmsb
  obtain ⟨hbq, hsrc, hdst, hdstmem, hdstnd, hfb, hcov⟩ := hspec b
  have hq0 : 0 ≤ qtyOf db.holdings l b := qtyOf_nonneg db.holdings l b hwf.2.2.1
  have htle : toCount msb l ≤ 1 := toCount_le_one msb l hdstnd
  have htz : 0 < toCount msb l → qtyOf db.holdings l b = 0 := by
    intro ht
    obtain ⟨m, hm, hme⟩ := List.mem_map.mp ((toCount_pos_iff msb l).mp ht)
    have := hdst m hm
    rw [hme] at this
    exact this
  have hfz : 0 < fromCount msb l →
      (fromCount msb l : Int) ≤ qtyOf db.holdings l b - 1 := hfb l
  rw [qtyOf_after_run v db hwf l b, ← hmsb]
  refine ⟨?_, ?_, ?_⟩
  · by_cases hf : 0 < fromCount msb l
    · have := hfz hf
      omega
    · have : fromCount msb l = 0 := by omega
      rw [this]
      push_cast
      omega
  · constructor
    · intro hpos
      by_cases hf : 0 < fromCount msb l
      · have := hfz hf
        omega
      · have hf0 : fromCount msb l = 0 := by omega
        rw [hf0] at hpos
        by_cases hq : 0 < qtyOf db.holdings l b
        · exact Or.inl hq
        · right
          omega
    · intro hor
      rcases hor with hq | ht
      · have ht0 : toCount msb l = 0 := by
          by_contra hc
          have := htz (by omega)
          omega
        by_cases hf : 0 < fromCount msb l
        · have := hfz hf
          omega
        · have : fromCount msb l = 0 := by omega
          omega
      · have hq0' := htz ht
        have hf0 : fromCount msb l = 0 := by
          by_contra hc
          have := hfz (by omega)
          omega
        omega
  · intro hf
    have := hfz hf
    omega

/-! ## Counting coverage -/

lemma length_eq_of_nodup_of_mem_iff (l1 l2 : List Nat) (h1 : l1.Nodup)
    (h2 : l2.Nodup) (h : ∀ x, x ∈ l1 ↔ x ∈ l2) : l1.length = l2.length := by
  rw [← List.toFinset_card_of_nodup h1, ← List.toFinset_card_of_nodup h2]
  congr 1
  ext x
  simp [h x]

/-- Coverage counted through the library table. -/
lemma coverage_eq_covL (db : DB) (hs : List Holding)
    (hq : ∀ h ∈ hs, 0 ≤ h.quantity)
    (hm : ∀ h ∈ hs, h.libraryId ∈ allLibIds db)
    (hlibs : (allLibIds db).Nodup) (b : Nat) :
    coverage hs b
      = ((allLibIds db).filter (fun l => decide (0 < qtyOf hs l b))).length := by
  refine length_eq_of_nodup_of_mem_iff _ _ (List.nodup_dedup _)
    (hlibs.filter _) ?_
  intro x
  rw [List.mem_filter]
  constructor
  · intro hx
    refine ⟨?_, by simp [(mem_hasSet_iff hs b x hq).mp hx]⟩
    obtain ⟨h, hh, hhe⟩ := List.mem_map.mp (List.mem_dedup.mp hx)
    exact hhe ▸ hm h (List.mem_of_mem_filter (List.mem_of_mem_filter hh))
  · intro hx
    exact (mem_hasSet_iff hs b x hq).mpr (by simpa using hx.2)

lemma length_filter_or (L : List Nat) (p q : Nat → Bool)
    (hdisj : ∀ l, ¬(p l = true ∧ q l = true)) :
    (L.filter (fun l => p l || q l)).length
      = (L.filter p).length + (L.filter q).length := by
  induction L with
  | nil => simp
  | cons a t ih =>
      rw [List.filter_cons, List.filter_cons, List.filter_cons]
      by_cases hp : p a = true
      · have hq' : ¬(q a = true) := fun hc => hdisj a ⟨hp, hc⟩
        rw [if_pos (by simp [hp]), if_pos hp, if_neg hq']
        simp only [List.length_cons]
        omega
      · by_cases hq' : q a = true
        · rw [if_pos (by simp [hq']), if_neg hp, if_pos hq']
          simp only [List.length_cons]
          omega
        · rw [if_neg (by simp [hp, hq']), if_neg hp, if_neg hq']
          exact ih

/-! ## Well-formedness of the applied store -/

lemma bumpDec_keys (hs : List Holding) (l b : Nat) (v : Int) :
    (bumpDec hs l b v).map (fun h => (h.libraryId, h.bookId))
      = hs.map (fun h => (h.libraryId, h.bookId)) := by
  unfold bumpDec
  rw [List.map_map]
  refine List.map_congr_left ?_
  intro h _
  simp only [Function.comp]
  split <;> rfl

lemma bumpInc_keys_cases (hs : List Holding) (l b : Nat) (v : Int) :
    (bumpInc hs l b v).map (fun h => (h.libraryId, h.bookId))
        = hs.map (fun h => (h.libraryId, h.bookId))
      ∨ ((bumpInc hs l b v).map (fun h => (h.libraryId, h.bookId))
          = hs.map (fun h => (h.libraryId, h.bookId)) ++ [(l, b)]
        ∧ (l, b) ∉ hs.map (fun h => (h.libraryId, h.bookId))) := by
  induction hs with
  | nil => exact Or.inr ⟨rfl, by simp⟩
  | cons h t ih =>
      rw [bumpInc_cons]
      by_cases hk : (h.libraryId == l && h.bookId == b) = true
      · rw [if_pos hk]
        exact Or.inl (by simp)
      · rw [if_neg hk]
        have hne : (h.libraryId, h.bookId) ≠ (l, b) := by
          intro hc
          rw [Prod.mk.injEq] at hc
          exact hk (by simp [hc.1, hc.2])
        rcases ih with ih | ⟨ih1, ih2⟩
        · exact Or.inl (by simp [ih])
        · refine Or.inr ⟨by simp [ih1], ?_⟩
          rw [List.map_cons, List.mem_cons]
          rintro (hc | hc)
          · exact hne hc.symm
          · exact ih2 hc

lemma foldInc_keys (f : Nat × Nat → Int) :
    ∀ (ps : List (Nat × Nat)) (hs : List Holding),
    (hs.map (fun h => (h.libraryId, h.bookId))).Nodup →
    (((ps.foldl (fun acc p => bumpInc acc p.1 p.2 (f p)) hs).map
        (fun h => (h.libraryId, h.bookId))).Nodup
      ∧ ∀ k ∈ (ps.foldl (fun acc p => bumpInc acc p.1 p.2 (f p)) hs).map
          (fun h => (h.libraryId, h.bookId)),
        k ∈ hs.map (fun h => (h.libraryId, h.bookId)) ∨ k ∈ ps)
  | [], hs, hnd => ⟨hnd, fun k hk => Or.inl hk⟩
  | p :: ps, hs, hnd => by
      rw [List.foldl_cons]
      have hstep := bumpInc_keys_cases hs p.1 p.2 (f p)
      have hndstep : ((bumpInc hs p.1 p.2 (f p)).map
          (fun h => (h.libraryId, h.bookId))).Nodup := by
        rcases hstep with hcase | ⟨hcase, hnotin⟩
        · rw [hcase]; exact hnd
        · rw [hcase, List.nodup_append]
          exact ⟨hnd, List.nodup_singleton _, by
            intro a ha hb
            rw [List.mem_singleton] at hb
            exact hnotin (hb ▸ ha)⟩
      obtain ⟨ihnd, ihmem⟩ := foldInc_keys f ps (bumpInc hs p.1 p.2 (f p)) hndstep
      refine ⟨ihnd, fun k hk => ?_⟩
      rcases ihmem k hk with hk2 | hk2
      · rcases hstep with hcase | ⟨hcase, _⟩
        · rw [hcase] at hk2
          exact Or.inl hk2
        · rw [hcase] at hk2
          rcases List.mem_append.mp hk2 with hk3 | hk3
          · exact Or.inl hk3
          · rw [List.mem_singleton] at hk3
            exact Or.inr (hk3 ▸ List.mem_cons_self _ _)
      · exact Or.inr (List.mem_cons_of_mem _ hk2)

lemma foldDec_keys (f : Nat × Nat → Int) :
    ∀ (ps : List (Nat × Nat)) (hs : List Holding),
    (ps.foldl (fun acc p => bumpDec acc p.1 p.2 (f p)) hs).map
        (fun h => (h.libraryId, h.bookId))
      = hs.map (fun h => (h.libraryId, h.bookId))
  | [], hs => rfl
  | p :: ps, hs => by
      rw [List.foldl_cons, foldDec_keys f ps, bumpDec_keys]

/-- Applying a plan keeps the `(library, book)` keys pairwise distinct, and
any key of the applied table was a key before or is an increment key. -/
lemma applyPlan_keys (hs : List Holding) (ms : List Move)
    (hnd : (hs.map (fun h => (h.libraryId, h.bookId))).Nodup) :
    ((applyPlan hs ms).map (fun h => (h.libraryId, h.bookId))).Nodup
      ∧ ∀ k ∈ (applyPlan hs ms).map (fun h => (h.libraryId, h.bookId)),
        k ∈ hs.map (fun h => (h.libraryId, h.bookId)) ∨ k ∈ incPairs ms := by
  unfold applyPlan
  rw [foldDec_keys]
  exact foldInc_keys _ (incPairs ms) hs hnd

/-- In a table with distinct keys, each row's quantity is the pair's total. -/
lemma row_qty_eq (hs : List Holding) (h : Holding)
    (hnd : (hs.map (fun h => (h.libraryId, h.bookId))).Nodup) (hmem : h ∈ hs) :
    h.quantity = qtyOf hs h.libraryId h.bookId := by
  have hm : h ∈ rowsFor hs h.libraryId h.bookId :=
    List.mem_filter.mpr ⟨hmem, by simp⟩
  have hle := rowsFor_length_le_one hs h.libraryId h.bookId hnd
  rcases hx : rowsFor hs h.libraryId h.bookId with _ | ⟨x, t⟩
  · rw [hx] at hm
    simp at hm
  · rw [hx] at hle hm
    have ht : t = [] := by
      rw [List.length_cons] at hle
      exact List.length_eq_zero.mp (by omega)
    subst ht
    have : h = x := by simpa using hm
    subst this
    rw [qtyOf, hx]
    simp

lemma length_le_sum_of_one_le (xs : List Int) (h : ∀ x ∈ xs, 1 ≤ x) :
    (xs.length : Int) ≤ xs.sum := by
  induction xs with
  | nil => simp
  | cons x t ih =>
      rw [List.length_cons, List.sum_cons]
      have h1 := h x (List.mem_cons_self _ _)
      have h2 := ih (fun y hy => h y (List.mem_cons_of_mem _ hy))
      push_cast
      omega

lemma sum_filter_le (l : List Holding) (p : Holding → Bool)
    (h : ∀ x ∈ l, 0 ≤ x.quantity) :
    ((l.filter p).map (·.quantity)).sum ≤ (l.map (·.quantity)).sum := by
  induction l with
  | nil => simp
  | cons x t ih =>
      rw [List.filter_cons]
      have h1 := h x (List.mem_cons_self _ _)
      have h2 := ih (fun y hy => h y (List.mem_cons_of_mem _ hy))
      by_cases hp : p x = true
      · rw [if_pos hp, List.map_cons, List.sum_cons, List.map_cons, List.sum_cons]
        omega
      · rw [if_neg hp, List.map_cons, List.sum_cons]
        omega

/-- In any well-formed store, coverage is below both the library count and the
total number of copies. -/
lemma coverage_le_min (db : DB) (hwf : WF db) (b : Nat) :
    coverage db.holdings b
      ≤ min db.libs.length (totalOf db.holdings b).toNat := by
  obtain ⟨hlibs, hkeys, hq, hmem, _⟩ := hwf
  refine le_min ?_ ?_
  · have hnd : (hasSet db.holdings b).Nodup := List.nodup_dedup _
    have hsub : ∀ x ∈ hasSet db.holdings b, x ∈ allLibIds db := by
      intro x hx
      obtain ⟨h, hh, hhe⟩ := List.mem_map.mp (List.mem_dedup.mp hx)
      exact hhe ▸ hmem h (List.mem_of_mem_filter (List.mem_of_mem_filter hh))
    calc coverage db.holdings b = (hasSet db.holdings b).toFinset.card :=
          (List.toFinset_card_of_nodup hnd).symm
      _ ≤ (allLibIds db).toFinset.card := by
          refine Finset.card_le_card ?_
          intro x hx
          rw [List.mem_toFinset] at hx ⊢
          exact hsub x hx
      _ ≤ (allLibIds db).length := List.toFinset_card_le _
      _ = db.libs.length := List.length_map _ _
  · set P := (holdingsFor db.holdings b).filter (fun h => decide (0 < h.quantity))
      with hP
    have h1 : coverage db.holdings b ≤ P.length := by
      calc coverage db.holdings b ≤ (P.map (·.libraryId)).length :=
            (List.dedup_sublist _).length_le
        _ = P.length := List.length_map _ _
    have h2 : (P.length : Int) ≤ (P.map (·.quantity)).sum := by
      have := length_le_sum_of_one_le (P.map (·.quantity)) (by
        intro x hx
        obtain ⟨h, hh, hhe⟩ := List.mem_map.mp hx
        have h3 := (List.mem_filter.mp hh).2
        simp only [decide_eq_true_eq] at h3
        omega)
      rwa [List.length_map] at this
    have h3 : (P.map (·.quantity)).sum ≤ totalOf db.holdings b := by
      rw [hP]
      exact sum_filter_le _ _ (fun x hx =>
        hq x (List.mem_of_mem_filter hx))
    omega

/-- Coverage of each book after an applied run grows by exactly the number of
moves the run planned for that book. -/
lemma coverage_after_run (v : Variant) (db : DB) (hwf : WF db) (b : Nat) :
    coverage (applyPlan db.holdings (runPlanMoves v db)) b
      = coverage db.holdings b
        + ((runPlanMoves v db).filter (fun m => m.bookId == b)).length := by
  obtain ⟨hspecAll, _⟩ := runPlanMoves_spec v db hwf
  set ms := runPlanMoves v db with hms
  set msb := ms.filter (fun m => m.bookId == b) with hmsb
  obtain ⟨hbq, hsrc, hdst, hdstmem, hdstnd, hfb, hcov⟩ := hspecAll b
  obtain ⟨hndafter, hmemafter⟩ := applyPlan_keys db.holdings ms hwf.2.1
  have hqafter : ∀ h ∈ applyPlan db.holdings ms, 0 ≤ h.quantity := by
    intro h hh
    rw [row_qty_eq _ h hndafter hh]
    exact (qtyOf_after_facts v db hwf h.libraryId h.bookId).1
  have hmlafter : ∀ h ∈ applyPlan db.holdings ms, h.libraryId ∈ allLibIds db := by
    intro h hh
    have hk : (h.libraryId, h.bookId) ∈ (applyPlan db.holdings ms).map
        (fun h => (h.libraryId, h.bookId)) := List.mem_map_of_mem _ hh
    rcases hmemafter _ hk with hk2 | hk2
    · obtain ⟨h', hh', hhe⟩ := List.mem_map.mp hk2
      have : h'.libraryId = h.libraryId := congrArg Prod.fst hhe
      exact this ▸ hwf.2.2.2.1 h' hh'
    · obtain ⟨m, hm, hme⟩ := List.mem_map.mp (List.mem_dedup.mp hk2)
      have hmf : m ∈ ms.filter (fun x => x.bookId == m.bookId) :=
        List.mem_filter.mpr ⟨hm, by simp⟩
      obtain ⟨_, _, _, hdm, _⟩ := hspecAll m.bookId
      have hto : m.toLibraryId = h.libraryId := congrArg Prod.fst hme
      exact hto ▸ hdm m hmf
  rw [coverage_eq_covL db (applyPlan db.holdings ms) hqafter hmlafter hwf.1 b,
    coverage_eq_covL db db.holdings hwf.2.2.1 hwf.2.2.2.1 hwf.1 b]
  have hpred : ∀ l ∈ allLibIds db,
      (decide (0 < qtyOf (applyPlan db.holdings ms) l b))
        = (decide (0 < qtyOf db.holdings l b)
            || decide (l ∈ msb.map (·.toLibraryId))) := by
    intro l _
    refine Bool.eq_iff_iff.mpr ?_
    simp only [Bool.or_eq_true, decide_eq_true_eq]
    rw [(qtyOf_after_facts v db hwf l b).2.1, toCount_pos_iff]
  rw [List.filter_congr hpred,
    length_filter_or _ _ _ (by
      intro l hl
      obtain ⟨h1, h2⟩ := hl
      simp only [decide_eq_true_eq] at h1 h2
      obtain ⟨m, hm, hme⟩ := List.mem_map.mp h2
      have := hdst m hm
      rw [hme] at this
      omega)]
  have hcnt : ((allLibIds db).filter
      (fun l => decide (l ∈ msb.map (·.toLibraryId)))).length
        = (msb.map (·.toLibraryId)).length := by
    refine length_eq_of_nodup_of_mem_iff _ _ ((hwf.1).filter _) hdstnd ?_
    intro x
    rw [List.mem_filter]
    simp only [decide_eq_true_eq]
    constructor
    · exact fun hx => hx.2
    · intro hx
      refine ⟨?_, hx⟩
      obtain ⟨m, hm, hme⟩ := List.mem_map.mp hx
      exact hme ▸ hdstmem m hm
  rw [hcnt, List.length_map]

/-! ## Used capacity after an applied run -/

lemma runPlanMoves_qty_one (v : Variant) (db : DB) (hwf : WF db) :
    ∀ m ∈ runPlanMoves v db, m.quantity = 1 := by
  intro m hm
  obtain ⟨hspec, _⟩ := runPlanMoves_spec v db hwf
  exact ((hspec m.bookId).1 m (List.mem_filter.mpr ⟨hm, by simp⟩)).2

lemma usedCapacity_after_run (v : Variant) (db : DB) (hwf : WF db) (l : Nat) :
    usedCapacity (applyPlan db.holdings (runPlanMoves v db)) l
      = usedCapacity db.holdings l
        + (toCount (runPlanMoves v db) l : Int)
        - (fromCount (runPlanMoves v db) l : Int) := by
  have h1 := runPlanMoves_qty_one v db hwf
  rw [usedCapacity_applyPlan db.holdings (runPlanMoves v db) l
    (runMoves_hdec v db hwf)]
  have h2 : (((runPlanMoves v db).filter
        (fun m => m.toLibraryId == l)).map (·.quantity)).sum
      = (toCount (runPlanMoves v db) l : Int) :=
    sum_ones _ (fun m hm => h1 m (List.mem_of_mem_filter hm))
  have h3 : (((runPlanMoves v db).filter
        (fun m => m.fromLibraryId == l)).map (·.quantity)).sum
      = (fromCount (runPlanMoves v db) l : Int) :=
    sum_ones _ (fun m hm => h1 m (List.mem_of_mem_filter hm))
  rw [h2, h3]

lemma fcGet_compute (db : DB) (hlibs : (db.libs.map (·.id)).Nodup)
    (L : LibraryRec) (hL : L ∈ db.libs) :
    fcGet (computeFreeCapacity db) L.id
      = L.capacity - usedCapacity db.holdings L.id := by
  unfold fcGet computeFreeCapacity
  rw [List.find?_map]
  have hpred : ((fun p : Nat × Int => p.1 == L.id)
      ∘ fun x : LibraryRec => (x.id, x.capacity - usedCapacity db.holdings x.id))
        = fun x : LibraryRec => x.id == L.id := rfl
  rw [hpred]
  have hex : db.libs.find? (fun x => x.id == L.id) ≠ none := by
    intro hc
    have := List.find?_eq_none.mp hc L hL
    simp at this
  rcases hfind : db.libs.find? (fun x => x.id == L.id) with _ | L'
  · exact absurd hfind hex
  · have hid : L'.id = L.id := by simpa using List.find?_some hfind
    have hmem := List.find?_mem hfind
    have : L' = L := by
      refine List.inj_on_of_nodup_map hlibs ?_ ?_ ?_
      · exact hmem
      · exact hL
      · exact hid
    subst this
    rw [hfind]
    simp

/-! ## Sortedness of the stable sort -/

lemma pairwise_insertLe {α : Type} (le : α → α → Bool)
    (htot : ∀ a b, le a b = true ∨ le b a = true)
    (htrans : ∀ a b c, le a b = true → le b c = true → le a c = true)
    (a : α) :
    ∀ l : List α, l.Pairwise (fun x y => le x y = true) →
    (insertLe le a l).Pairwise (fun x y => le x y = true)
  | [], _ => by simp [insertLe]
  | b :: t, hp => by
      unfold insertLe
      obtain ⟨hb, ht⟩ := List.pairwise_cons.mp hp
      by_cases hab : le a b = true
      · rw [if_pos hab]
        refine List.pairwise_cons.mpr ⟨?_, hp⟩
        intro y hy
        rcases List.mem_cons.mp hy with hy | hy
        · exact hy ▸ hab
        · exact htrans a b y hab (hb y hy)
      · rw [if_neg hab]
        have hba : le b a = true := (htot a b).resolve_left hab
        refine List.pairwise_cons.mpr ⟨?_, pairwise_insertLe le htot htrans a t ht⟩
        intro y hy
        rcases (insertLe_perm le a t).mem_iff.mp hy with hy2
        rcases List.mem_cons.mp hy2 with hy2 | hy2
        · exact hy2 ▸ hba
        · exact hb y hy2

lemma pairwise_sortLe {α : Type} (le : α → α → Bool)
    (htot : ∀ a b, le a b = true ∨ le b a = true)
    (htrans : ∀ a b c, le a b = true → le b c = true → le a c = true) :
    ∀ l : List α, (sortLe le l).Pairwise (fun x y => le x y = true)
  | [] => by simp [sortLe]
  | a :: t => pairwise_insertLe le htot htrans a (sortLe le t)
      (pairwise_sortLe le htot htrans t)

lemma keyLe_total (a b : Nat × Int) : keyLe a b = true ∨ keyLe b a = true := by
  simp only [keyLe, Bool.or_eq_true, Bool.and_eq_true, decide_eq_true_eq,
    beq_iff_eq]
  omega

lemma keyLe_trans (a b c : Nat × Int) (h1 : keyLe a b = true)
    (h2 : keyLe b c = true) : keyLe a c = true := by
  simp only [keyLe, Bool.or_eq_true, Bool.and_eq_true, decide_eq_true_eq,
    beq_iff_eq] at h1 h2 ⊢
  omega

/-! ## Concrete stores for witnesses and counterexamples -/

/-- Three libraries, two books: library 1 holds five copies of book 1,
library 2 holds one copy of book 2. -/
def dbW : DB :=
  ⟨[⟨1, 10⟩, ⟨2, 10⟩, ⟨3, 5⟩], [⟨1, 2001, 1⟩, ⟨2, 1999, 2⟩],
    [⟨1, 1, 5⟩, ⟨2, 2, 1⟩]⟩

/-- Two libraries; two candidate books by unconfigured authors, the older one
with the smaller id. -/
def db7 : DB :=
  ⟨[⟨1, 10⟩, ⟨2, 10⟩], [⟨1, 2000, 7⟩, ⟨2, 2020, 8⟩],
    [⟨1, 1, 2⟩, ⟨1, 2, 2⟩]⟩

/-- Two libraries, the second with room for exactly one more copy. -/
def db8 : DB :=
  ⟨[⟨1, 10⟩, ⟨2, 1⟩], [⟨1, 2000, 1⟩], [⟨1, 1, 2⟩]⟩

/-- A store with no libraries at all. -/
def db6 : DB := ⟨[], [⟨1, 2020, 1⟩], []⟩

/-! ## The claims -/

/-- C1: for every book and every plan produced by a rebalance run (any
variant), applying the plan leaves the sum of quantities over all libraries
for that book unchanged — each unit move decrements its source holding and
increments (or creates with 1) its destination holding, so `_apply_plan`
neither creates nor destroys copies. -/
theorem claim1_apply_conserves_totals (v : Variant) (db : DB) (hwf : WF db)
    (b : Nat) :
    totalOf (runRebalance v false db).2.holdings b = totalOf db.holdings b := by
  rw [(runRebalance_apply v db).1]
  exact totalOf_applyPlan db.holdings (runPlanMoves v db) b
    (runMoves_hdec v db hwf)

theorem claim1_witness :
    WF dbW
    ∧ totalOf (runRebalance .base false dbW).2.holdings 1
        = totalOf dbW.holdings 1 :=
  ⟨by unfold WF; decide, claim1_apply_conserves_totals .base dbW (by unfold WF; decide) 1⟩

/-- C2: for every book, after a successful apply of a rebalance run's plan
(with N the library count at run start), the coverage of the book is at most
`min N (total b)`, and is no smaller than its pre-run value. -/
theorem claim2_coverage_bounds (v : Variant) (db : DB) (hwf : WF db) (b : Nat) :
    coverage (runRebalance v false db).2.holdings b
        ≤ min db.libs.length (totalOf db.holdings b).toNat
    ∧ coverage db.holdings b ≤ coverage (runRebalance v false db).2.holdings b := by
  rw [(runRebalance_apply v db).1, coverage_after_run v db hwf b]
  constructor
  · obtain ⟨hspec, _⟩ := runPlanMoves_spec v db hwf
    obtain ⟨_, _, _, _, _, _, hcov⟩ := hspec b
    rcases hcov with hnil | hb
    · rw [hnil]
      simpa using coverage_le_min db hwf b
    · exact hb
  · omega

theorem claim2_witness :
    WF dbW
    ∧ (coverage (runRebalance .base false dbW).2.holdings 1
          ≤ min dbW.libs.length (totalOf dbW.holdings 1).toNat
        ∧ coverage dbW.holdings 1
          ≤ coverage (runRebalance .base false dbW).2.holdings 1) :=
  ⟨by unfold WF; decide, claim2_coverage_bounds .base dbW (by unfold WF; decide) 1⟩

/-- C3: for every book and donor library, a single rebalance run's moves for
the book take at most (donor quantity − 1) copies from that donor — so no
donor drops below one copy after apply — sources of moves are strict donors
(quantity > 1), and the builder's donor list is exactly the holdings with
quantity > 1 for the book. -/
theorem claim3_donor_floor (v : Variant) (db : DB) (hwf : WF db) :
    (∀ m ∈ runPlanMoves v db,
        1 < qtyOf db.holdings m.fromLibraryId m.bookId)
    ∧ (∀ b h, h ∈ donorsFor db.holdings b ↔
        (h ∈ db.holdings ∧ h.bookId = b ∧ 1 < h.quantity))
    ∧ (∀ b l,
        (fromCount ((runPlanMoves v db).filter (fun m => m.bookId == b)) l : Int)
          ≤ max (qtyOf db.holdings l b - 1) 0)
    ∧ (∀ b l,
        0 < fromCount ((runPlanMoves v db).filter (fun m => m.bookId == b)) l →
        1 ≤ qtyOf (runRebalance v false db).2.holdings l b) := by
  obtain ⟨hspec, _⟩ := runPlanMoves_spec v db hwf
  refine ⟨?_, ?_, ?_, ?_⟩
  · intro m hm
    exact (hspec m.bookId).2.1 m (List.mem_filter.mpr ⟨hm, by simp⟩)
  · intro b h
    exact mem_donorsFor_iff db.holdings b h
  · intro b l
    obtain ⟨_, _, _, _, _, hfb, _⟩ := hspec b
    by_cases hpos : 0 < fromCount ((runPlanMoves v db).filter
        (fun m => m.bookId == b)) l
    · have := hfb l hpos
      omega
    · have : fromCount ((runPlanMoves v db).filter (fun m => m.bookId == b)) l
          = 0 := by omega
      rw [this]
      have := le_max_right (qtyOf db.holdings l b - 1) (0 : Int)
      omega
  · intro b l hpos
    rw [(runRebalance_apply v db).1]
    exact (qtyOf_after_facts v db hwf l b).2.2 hpos

theorem claim3_witness :
    WF dbW
    ∧ ((∀ m ∈ runPlanMoves .base dbW,
          1 < qtyOf dbW.holdings m.fromLibraryId m.bookId)
        ∧ (∀ b h, h ∈ donorsFor dbW.holdings b ↔
            (h ∈ dbW.holdings ∧ h.bookId = b ∧ 1 < h.quantity))
        ∧ (∀ b l,
            (fromCount ((runPlanMoves .base dbW).filter
              (fun m => m.bookId == b)) l : Int)
              ≤ max (qtyOf dbW.holdings l b - 1) 0)
        ∧ (∀ b l,
            0 < fromCount ((runPlanMoves .base dbW).filter
              (fun m => m.bookId == b)) l →
            1 ≤ qtyOf (runRebalance .base false dbW).2.holdings l b)) :=
  ⟨by unfold WF; decide, claim3_donor_floor .base dbW (by unfold WF; decide)⟩

/-- C5: planning is deterministic as a two-run property: a dry run leaves the
stored state unchanged, so a second invocation of `rebalance` (a fresh manager
over the same stored holdings, libraries, books and configuration, as the
management command constructs one per run) plans the identical report — same
moves in the same order. -/
theorem claim5_replanning_deterministic (v : Variant) (db : DB) :
    (runRebalance v true db).2 = db
    ∧ (runRebalance v true ((runRebalance v true db).2)).1
        = (runRebalance v true db).1 := by
  have h := (runRebalance_apply v db).2.2.2.2
  exact ⟨h, by rw [h]⟩

/-- C10: in every plan of every variant, each move has quantity exactly 1,
per book the destination libraries are pairwise distinct and disjoint from
that book's source libraries, and hence in `_apply_plan` the increment and
decrement maps have disjoint key sets and every aggregated increment equals 1
(no destination pair receives more than one copy of a book per run). -/
theorem claim10_unit_disjoint (v : Variant) (db : DB) (hwf : WF db) :
    (∀ m ∈ runPlanMoves v db, m.quantity = 1)
    ∧ (∀ b, (((runPlanMoves v db).filter (fun m => m.bookId == b)).map
        (·.toLibraryId)).Nodup)
    ∧ (∀ b l, ¬(l ∈ ((runPlanMoves v db).filter
          (fun m => m.bookId == b)).map (·.toLibraryId)
        ∧ l ∈ ((runPlanMoves v db).filter
          (fun m => m.bookId == b)).map (·.fromLibraryId)))
    ∧ (∀ p ∈ incPairs (runPlanMoves v db),
        incAmt (runPlanMoves v db) p.1 p.2 = 1)
    ∧ (∀ p, ¬(p ∈ incPairs (runPlanMoves v db)
        ∧ p ∈ decPairs (runPlanMoves v db))) := by
  obtain ⟨hspec, _⟩ := runPlanMoves_spec v db hwf
  have hq1 := runPlanMoves_qty_one v db hwf
  refine ⟨hq1, ?_, ?_, ?_, ?_⟩
  · intro b
    exact (hspec b).2.2.2.2.1
  · intro b l hl
    obtain ⟨hto, hfrom⟩ := hl
    obtain ⟨m, hm, hme⟩ := List.mem_map.mp hto
    obtain ⟨m', hm', hme'⟩ := List.mem_map.mp hfrom
    obtain ⟨_, _, hdst, _, _, _, _⟩ := hspec b
    have hz := hdst m hm
    rw [hme] at hz
    have hb' : m'.bookId = b := by
      have := (List.mem_filter.mp hm').2
      simpa using this
    have hd := (hspec b).2.1 m' hm'
    rw [hme'] at hd
    omega
  · intro p hp
    obtain ⟨m, hm, hme⟩ := List.mem_map.mp (List.mem_dedup.mp hp)
    have hq1b : ∀ x ∈ (runPlanMoves v db).filter
        (fun x => x.bookId == p.2), x.quantity = 1 :=
      fun x hx => hq1 x (List.mem_of_mem_filter hx)
    rw [incAmt_eq_toCount _ _ _ hq1b]
    have hmf : m ∈ (runPlanMoves v db).filter (fun x => x.bookId == p.2) :=
      List.mem_filter.mpr ⟨hm, by rw [← hme]; simp⟩
    have hpos : 0 < toCount ((runPlanMoves v db).filter
        (fun x => x.bookId == p.2)) p.1 := by
      rw [toCount_pos_iff]
      refine List.mem_map.mpr ⟨m, hmf, ?_⟩
      rw [← hme]
    have hle : toCount ((runPlanMoves v db).filter
        (fun x => x.bookId == p.2)) p.1 ≤ 1 :=
      toCount_le_one _ _ (hspec p.2).2.2.2.2.1
    omega
  · intro p hp
    obtain ⟨hpi, hpd⟩ := hp
    obtain ⟨m, hm, hme⟩ := List.mem_map.mp (List.mem_dedup.mp hpi)
    obtain ⟨m', hm', hme'⟩ := List.mem_map.mp (List.mem_dedup.mp hpd)
    obtain ⟨_, _, hdst, _, _, _, _⟩ := hspec p.2
    have hz := hdst m (List.mem_filter.mpr ⟨hm, by rw [← hme]; simp⟩)
    have hto : m.toLibraryId = p.1 := congrArg Prod.fst hme
    rw [hto] at hz
    have hd := (hspec p.2).2.1 m'
      (List.mem_filter.mpr ⟨hm', by rw [← hme']; simp⟩)
    have hfrom : m'.fromLibraryId = p.1 := congrArg Prod.fst hme'
    rw [hfrom] at hd
    omega

theorem claim10_witness :
    WF dbW
    ∧ ((∀ m ∈ runPlanMoves .base dbW, m.quantity = 1)
        ∧ (∀ b, (((runPlanMoves .base dbW).filter (fun m => m.bookId == b)).map
            (·.toLibraryId)).Nodup)
        ∧ (∀ b l, ¬(l ∈ ((runPlanMoves .base dbW).filter
              (fun m => m.bookId == b)).map (·.toLibraryId)
            ∧ l ∈ ((runPlanMoves .base dbW).filter
              (fun m => m.bookId == b)).map (·.fromLibraryId)))
        ∧ (∀ p ∈ incPairs (runPlanMoves .base dbW),
            incAmt (runPlanMoves .base dbW) p.1 p.2 = 1)
        ∧ (∀ p, ¬(p ∈ incPairs (runPlanMoves .base dbW)
            ∧ p ∈ decPairs (runPlanMoves .base dbW)))) :=
  ⟨by unfold WF; decide, claim10_unit_disjoint .base dbW (by unfold WF; decide)⟩

/-- C4: in capacity-aware mode (and the priority variant that inherits it),
if every library satisfies `used_capacity ≤ capacity` before the run, then
after applying the plan every library still does: destinations are chosen only
while their tracked free capacity is positive, the tracked value is
decremented per emitted move, exhausted recipients are skipped without error,
and no move pushes a destination into negative free capacity. -/
theorem claim4_capacity_invariant (v : Variant) (db : DB) (hwf : WF db)
    (hv : v = .capacityAware ∨ ∃ cfg, v = .priority cfg)
    (hcap : ∀ L ∈ db.libs, usedCapacity db.holdings L.id ≤ L.capacity) :
    ∀ L ∈ (runRebalance v false db).2.libs,
      usedCapacity (runRebalance v false db).2.holdings L.id ≤ L.capacity := by
  intro L hL
  rw [(runRebalance_apply v db).2.1] at hL
  rw [(runRebalance_apply v db).1, usedCapacity_after_run v db hwf L.id]
  obtain ⟨fcEnd, htracks⟩ := runPlanMoves_tracks db hwf v hv
  obtain ⟨heq, hnn⟩ := htracks L.id
  have h2 := hcap L hL
  by_cases ht : 0 < toCount (runPlanMoves v db) L.id
  · have h1 := hnn ht
    rw [heq, fcGet_compute db hwf.1 L hL] at h1
    omega
  · have ht0 : toCount (runPlanMoves v db) L.id = 0 := by omega
    rw [ht0]
    omega

theorem claim4_witness :
    (WF dbW ∧ (∀ L ∈ dbW.libs, usedCapacity dbW.holdings L.id ≤ L.capacity))
    ∧ ∀ L ∈ (runRebalance .capacityAware false dbW).2.libs,
        usedCapacity (runRebalance .capacityAware false dbW).2.holdings L.id
          ≤ L.capacity :=
  ⟨⟨by unfold WF; decide, by decide⟩,
    claim4_capacity_invariant .capacityAware dbW (by unfold WF; decide)
      (Or.inl rfl) (by decide)⟩

/-- Applying an empty move list is a no-op. -/
lemma applyPlan_nil (hs : List Holding) : applyPlan hs [] = hs := rfl

lemma candidateBookIds_zero (db : DB) : candidateBookIds db 0 = [] := by
  unfold candidateBookIds
  rw [List.filter_eq_nil_iff]
  intro b _
  simp

/-- C6 counterexample: on a store with no libraries the code does NOT fail —
`rebalance` returns an ordinary empty report (`Plan([], 0, 0)`) and leaves the
store untouched, for the base variant and the others alike.  The claimed
fatal precondition failure does not exist in `rebalance`: with `nlibs = 0`
the selector's `covered < 0` filter is unsatisfiable and the run completes
normally. -/
theorem claim6_counterexample :
    runRebalance .base true db6 = (⟨[], 0, 0⟩, db6)
    ∧ runRebalance .capacityAware true db6 = (⟨[], 0, 0⟩, db6)
    ∧ runRebalance .base false db6 = (⟨[], 0, 0⟩, db6) := by
  refine ⟨by decide, by decide, by decide⟩

/-- C6 amended: when no libraries are present, `rebalance` (any variant, dry
run or apply) completes normally and returns the ordinary empty report — zero
books considered, zero moves — with the store unchanged; no failure is raised
or reported. -/
theorem claim6_amended (v : Variant) (dryRun : Bool) (db : DB)
    (h : db.libs = []) :
    runRebalance v dryRun db = (⟨[], 0, 0⟩, db) := by
  have hn : db.libs.length = 0 := by rw [h]; rfl
  have hc : candidateBookIds db db.libs.length = [] := by
    rw [hn]
    exact candidateBookIds_zero db
  cases v with
  | base =>
      cases dryRun <;>
        simp [runRebalance, rebalanceBase, hc, applyPlan_nil]
  | capacityAware =>
      cases dryRun <;>
        simp [runRebalance, rebalanceCap, hc, planForCandidates, applyPlan_nil]
  | priority cfg =>
      have ho : orderedCandidates cfg db = [] := by
        unfold orderedCandidates
        rw [hc]
        rfl
      cases dryRun <;>
        simp [runRebalance, rebalancePriority, ho, planForCandidates,
          applyPlan_nil]

theorem claim6_witness :
    db6.libs = [] ∧ runRebalance .base true db6 = (⟨[], 0, 0⟩, db6) :=
  ⟨rfl, claim6_amended .base true db6 rfl⟩

/-- C7 counterexample: under `author_first` with author set `{5}` (neither
book's author), candidate books 1 (year 2000) and 2 (year 2020) are processed
in ascending-id order `[1, 2]` — their sort keys are `(2, id)` — so the move
for the OLDER book 1 comes first, whereas the claim's newer-first ordering of
the remaining books would process book 2 (year 2020) first. -/
theorem claim7_counterexample :
    (runRebalance (.priority ⟨"author_first", [5]⟩) true db7).1.moves.map
        (·.bookId) = [1, 2]
    ∧ sortKey ⟨"author_first", [5]⟩ db7 1 = (2, 1)
    ∧ sortKey ⟨"author_first", [5]⟩ db7 2 = (2, 2)
    ∧ (db7.books.map (·.year) = [2000, 2020])
    ∧ [1, 2] ≠ [2, 1] := by
  refine ⟨by decide, by decide, by decide, by decide, by decide⟩

/-- C7 amended: under `author_first`, candidate books are processed in
ascending order of their sort keys; books by configured authors get key
`(0, −year)` — so they come first, newer first — while every remaining
candidate gets key `(2, book id)` — so the remaining books are processed in
ascending book-id order, NOT newer-first. -/
theorem claim7_amended (cfg : PriorityCfg) (db : DB)
    (h : cfg.priority = "author_first") :
    (orderedCandidates cfg db).Pairwise (fun x y =>
      (sortKey cfg db x).1 < (sortKey cfg db y).1
        ∨ ((sortKey cfg db x).1 = (sortKey cfg db y).1
          ∧ (sortKey cfg db x).2 ≤ (sortKey cfg db y).2))
    ∧ (∀ b meta, db.books.find? (fun x => x.id == b) = some meta →
        (cfg.authorIds.contains meta.authorId = true →
          sortKey cfg db b = (0, -meta.year))
        ∧ (cfg.authorIds.contains meta.authorId = false →
          sortKey cfg db b = (2, (b : Int)))) := by
  constructor
  · have hp := pairwise_sortLe
      (fun x y => keyLe (sortKey cfg db x) (sortKey cfg db y))
      (fun a b => keyLe_total _ _)
      (fun a b c h1 h2 => keyLe_trans _ _ _ h1 h2)
      (candidateBookIds db db.libs.length)
    refine hp.imp ?_
    intro a b hab
    simpa [keyLe] using hab
  · intro b meta hmeta
    constructor
    · intro hin
      have hin2 : meta.authorId ∈ cfg.authorIds := by simpa using hin
      unfold sortKey
      rw [hmeta]
      simp [h, hin2]
    · intro hout
      have hout2 : meta.authorId ∉ cfg.authorIds := by simpa using hout
      unfold sortKey
      rw [hmeta]
      simp [h, hout2]

theorem claim7_witness :
    (⟨"author_first", [5]⟩ : PriorityCfg).priority = "author_first"
    ∧ ((orderedCandidates ⟨"author_first", [5]⟩ db7).Pairwise (fun x y =>
        (sortKey ⟨"author_first", [5]⟩ db7 x).1
            < (sortKey ⟨"author_first", [5]⟩ db7 y).1
          ∨ ((sortKey ⟨"author_first", [5]⟩ db7 x).1
              = (sortKey ⟨"author_first", [5]⟩ db7 y).1
            ∧ (sortKey ⟨"author_first", [5]⟩ db7 x).2
              ≤ (sortKey ⟨"author_first", [5]⟩ db7 y).2))
      ∧ (∀ b meta, db7.books.find? (fun x => x.id == b) = some meta →
          ((⟨"author_first", [5]⟩ : PriorityCfg).authorIds.contains
              meta.authorId = true →
            sortKey ⟨"author_first", [5]⟩ db7 b = (0, -meta.year))
          ∧ ((⟨"author_first", [5]⟩ : PriorityCfg).authorIds.contains
              meta.authorId = false →
            sortKey ⟨"author_first", [5]⟩ db7 b = (2, (b : Int))))) :=
  ⟨rfl, claim7_amended ⟨"author_first", [5]⟩ db7 rfl⟩

/-- C8 counterexample: the free-capacity map is NOT scoped to a single
`rebalance` invocation.  On `db8` a fresh capacity-aware manager plans one
move and leaves the mutated map `[(1, 8), (2, 0)]` in the instance; a second
dry-run call on the same instance (same stored state) plans against that
leftover map and produces NO moves, differing from the fresh-instance plan. -/
theorem claim8_counterexample :
    (rebalanceCap true db8 []).1.moves = [⟨1, 1, 2, 1⟩]
    ∧ (rebalanceCap true db8 []).2.2 = [(1, 8), (2, 0)]
    ∧ (rebalanceCap true db8 ((rebalanceCap true db8 []).2.2)).1.moves = []
    ∧ (rebalanceCap true db8 ((rebalanceCap true db8 []).2.2)).1
        ≠ (rebalanceCap true db8 []).1 := by
  refine ⟨by decide, by decide, by decide, by decide⟩

/-- C8 amended: the free-capacity map is scoped to the manager INSTANCE, not
to one invocation — computed from storage only when the held map is empty and
retained, mutated, across calls — so a second `rebalance` on the same
instance can observe the previous run's decrements (see the counterexample).
What does hold: a rebalance on a freshly constructed instance (empty map)
plans and applies exactly as a run over the freshly computed capacity
snapshot, for both the capacity-aware and the priority manager. -/
theorem claim8_amended (dryRun : Bool) (cfg : PriorityCfg) (db : DB) :
    ((rebalanceCap dryRun db []).1
        = (rebalanceCap dryRun db (computeFreeCapacity db)).1
      ∧ (rebalanceCap dryRun db []).2.1
        = (rebalanceCap dryRun db (computeFreeCapacity db)).2.1)
    ∧ ((rebalancePriority dryRun cfg db []).1
        = (rebalancePriority dryRun cfg db (computeFreeCapacity db)).1
      ∧ (rebalancePriority dryRun cfg db []).2.1
        = (rebalancePriority dryRun cfg db (computeFreeCapacity db)).2.1) := by
  cases dryRun <;>
    simp [rebalanceCap, rebalancePriority, planForCandidates_empty_fc]

/-- C9 counterexample: requesting a priority mode WITHOUT `--capacity-aware`
does not route through the capacity-aware code path: `Command.handle`
constructs the plain base `RedistributionManager`, which is neither the
capacity-aware nor the priority manager. -/
theorem claim9_counterexample :
    selectManager false "author_first" [3] = ManagerChoice.base
    ∧ ManagerChoice.base ≠ ManagerChoice.capacityAware
    ∧ ManagerChoice.base ≠ ManagerChoice.priorityAware "author_first" [3] := by
  refine ⟨by decide, by decide, by decide⟩

/-- C9 amended: with `capacityAware = false` the rebalance command always
selects the base manager, whatever priority mode or author list is supplied —
priority without capacity-awareness is silently ignored, not promoted to the
capacity-aware path. -/
theorem claim9_amended (priority : String) (authors : List Nat) :
    selectManager false priority authors = ManagerChoice.base := by
  simp [selectManager]

end CitiLibrary
